import Mathlib

/-!
# TreeCNFConverter: conversion of boolean expression trees to CNF and back

A shallow embedding of `src/Interpreters/TreeCNFConverter.cpp`.

* `AST` stands for the syntax tree (`IAST` / `ASTFunction`): a node is either an
  `ASTFunction` with a name and an ordered list of arguments, or any other node.
* `std::set` is a `Finset`; where the source iterates over a set (and the order
  of the iteration is observable) the elements are enumerated in increasing
  order by `setElems`.
* A thrown exception, and an out-of-range `children[i]`, is the result `none`.
-/

namespace DB

/-! ## Syntax trees -/

/-- Syntax tree node. `func name args` is an `ASTFunction` (`node->as<ASTFunction>()`
succeeds), with `func->name` and `func->arguments->children`; `leaf id` is any other
node (identifier, literal, ...), told apart by `id`. -/
inductive AST where
  | leaf (id : Nat)
  | func (name : String) (args : List AST)

/-- The function `makeASTFunction(name, args...)`. -/
def makeASTFunction (name : String) (args : List AST) : AST := AST.func name args

mutual
/-- Modelled from the spec: the total order on atomic predicates (in the source
`AtomicFormula::operator<` compares `ast->getTreeHash()`; the header declaring it and
the hash are not under `src/`). The spec asks for "a total, stable ordering/equality
over atomic predicates"; the model orders trees by this key, the pre-order listing of
the nodes (`2 * id` for a leaf; `2 * arity + 1` and the name's characters for a
function), compared lexicographically. -/
def AST.treeKey : AST → List (ℕ ×ₗ List ℕ)
  | .leaf n => [toLex (2 * n, [])]
  | .func name args =>
    toLex (2 * args.length + 1, name.data.map Char.toNat) :: AST.treeKeyList args
/-- The keys of a list of trees, one after the other. -/
def AST.treeKeyList : List AST → List (ℕ ×ₗ List ℕ)
  | [] => []
  | c :: cs => AST.treeKey c ++ AST.treeKeyList cs
end

theorem charToNat_injective : Function.Injective Char.toNat := by
  intro a b h
  apply Char.ext
  cases a with
  | mk va ha =>
    cases b with
    | mk vb hb =>
      simp only [Char.toNat] at h
      cases va with
      | mk x =>
        cases vb with
        | mk y =>
          simp only [UInt32.toNat] at h
          congr
          exact BitVec.eq_of_toNat_eq h

mutual
theorem AST.treeKey_prefix : ∀ (a b : AST) (r s : List (ℕ ×ₗ List ℕ)),
    a.treeKey ++ r = b.treeKey ++ s → a = b ∧ r = s
  | .leaf n, .leaf m, r, s, h => by
    simp only [AST.treeKey, List.cons_append, List.nil_append, List.cons.injEq] at h
    obtain ⟨h1, h2⟩ := h
    have e1 := congrArg (fun x => (ofLex x).1) h1
    simp at e1
    exact ⟨by rw [e1], h2⟩
  | .leaf n, .func m bs, r, s, h => by
    simp only [AST.treeKey, List.cons_append, List.nil_append, List.cons.injEq] at h
    have e1 := congrArg (fun x => (ofLex x).1) h.1
    simp at e1
    omega
  | .func n as, .leaf m, r, s, h => by
    simp only [AST.treeKey, List.cons_append, List.nil_append, List.cons.injEq] at h
    have e1 := congrArg (fun x => (ofLex x).1) h.1
    simp at e1
    omega
  | .func n as, .func m bs, r, s, h => by
    simp only [AST.treeKey, List.cons_append, List.nil_append, List.cons.injEq] at h
    obtain ⟨h1, h2⟩ := h
    have e1 := congrArg (fun x => (ofLex x).1) h1
    have e2 := congrArg (fun x => (ofLex x).2) h1
    simp at e1 e2
    obtain ⟨h3, h4⟩ := AST.treeKeyList_prefix as bs r s e1 h2
    have e3 : n = m :=
      String.ext (List.map_injective_iff.mpr charToNat_injective e2)
    exact ⟨by rw [e3, h3], h4⟩
theorem AST.treeKeyList_prefix : ∀ (as bs : List AST) (r s : List (ℕ ×ₗ List ℕ)),
    as.length = bs.length → AST.treeKeyList as ++ r = AST.treeKeyList bs ++ s →
      as = bs ∧ r = s
  | [], [], r, s, _, h => by simpa [AST.treeKeyList] using h
  | [], _ :: _, _, _, hl, _ => by simp at hl
  | _ :: _, [], _, _, hl, _ => by simp at hl
  | a :: as, b :: bs, r, s, hl, h => by
    simp only [AST.treeKeyList, List.append_assoc] at h
    obtain ⟨h1, h2⟩ := AST.treeKey_prefix a b _ _ h
    obtain ⟨h3, h4⟩ := AST.treeKeyList_prefix as bs r s (by simpa using hl) h2
    exact ⟨by rw [h1, h3], h4⟩
end

theorem AST.treeKey_injective : Function.Injective AST.treeKey := by
  intro a b h
  exact (AST.treeKey_prefix a b [] [] (by rw [h])).1

instance AST.instLinearOrder : LinearOrder AST :=
  LinearOrder.lift' AST.treeKey AST.treeKey_injective

/-! ## Literals, clauses, CNF values -/

/-- The struct `CNFQuery::AtomicFormula`: a predicate with a negation flag. The
predicate type is a parameter `α` (it is `AST` in the converter); the clause
operations use nothing of it but its order. -/
structure AtomicFormula (α : Type) where
  negative : Bool
  ast : α

/-- Modelled from the spec: the order of `AtomicFormula` (its `operator<` is declared
in the header, not under `src/`): "ordering follows the predicate's external order;
two literals are equal iff predicate and negation flag both match", so literals are
compared by predicate first and by flag second. -/
def AtomicFormula.key {α : Type} (a : AtomicFormula α) : α ×ₗ Bool :=
  toLex (a.ast, a.negative)

theorem AtomicFormula.key_injective {α : Type} :
    Function.Injective (@AtomicFormula.key α) := by
  intro a b h
  cases a
  cases b
  simp only [AtomicFormula.key, EmbeddingLike.apply_eq_iff_eq, Prod.mk.injEq] at h
  simp [h]

instance AtomicFormula.instLinearOrder {α : Type} [LinearOrder α] :
    LinearOrder (AtomicFormula α) :=
  LinearOrder.lift' AtomicFormula.key AtomicFormula.key_injective

/-- The type `CNFQuery::OrGroup = std::set<AtomicFormula>`. -/
abbrev OrGroup (α : Type) [LinearOrder α] := Finset (AtomicFormula α)

/-- The type `CNFQuery::AndGroup = std::set<OrGroup>`. -/
abbrev AndGroup (α : Type) [LinearOrder α] := Finset (OrGroup α)

/-- The class `CNFQuery`: its only data member is `statements : AndGroup`. -/
abbrev CNFQuery (α : Type) [LinearOrder α] := AndGroup α

/-- The elements of a `std::set` in iteration order, that is increasing for the
set's total order `r`. -/
def setElems {β : Type} (r : β → β → Prop) [DecidableRel r] [IsTrans β r] [IsAntisymm β r]
    [IsTotal β r] (s : Finset β) : List β :=
  Quot.liftOn s.val (List.insertionSort r) (fun _ _ h =>
    List.eq_of_perm_of_sorted
      (((List.perm_insertionSort r _).trans h).trans (List.perm_insertionSort r _).symm)
      (List.sorted_insertionSort r _) (List.sorted_insertionSort r _))

/-- Iteration over an `OrGroup`: its literals in increasing order. -/
def OrGroup.elems {α : Type} [LinearOrder α] (g : OrGroup α) : List (AtomicFormula α) :=
  setElems (· ≤ ·) g

/-- The order of `std::set<OrGroup>`: `operator<` of `std::set` compares the two
sets lexicographically, element by element in iteration order. -/
def OrGroup.le {α : Type} [LinearOrder α] (g h : OrGroup α) : Prop :=
  OrGroup.elems g ≤ OrGroup.elems h

/-! ## Pipeline of `toCNF` -/

mutual
/-- The function `splitMultiLogic`: splits `AND(a, b, c)` into binary nodes, for
AND/OR. `none` is the exception "Bad logical function". The source first builds
the chain `name(name(c0, c1), c2) ...` from the unprocessed children and then
recurses into the children of the new node; every inner node of that chain is a
fresh node of the same name with two children, so the recursion reaches exactly
the original children `c0, c1, ...`: the model processes them first and chains
the results. The order of the source is `splitMultiLogicDirect` below, and
`splitMultiLogicDirect_eq` proves that the two agree. -/
def splitMultiLogic : AST → Option AST
  | .leaf id => some (.leaf id)
  | .func name args =>
    if name = "and" ∨ name = "or" then
      if args.length < 2 then none
      else
        match splitMultiLogicList args with
        | none => none
        | some [] => none
        | some (c0 :: cs) =>
          if args.length > 2 then
            some (cs.foldl (fun res c => makeASTFunction name [res, c]) c0)
          else some (.func name (c0 :: cs))
    else if name = "not" then
      (splitMultiLogicList args).map (AST.func name)
    else some (.func name args)
/-- The loop `for (auto & child : children) splitMultiLogic(child)`. -/
def splitMultiLogicList : List AST → Option (List AST)
  | [] => some []
  | c :: cs =>
    match splitMultiLogic c with
    | none => none
    | some c1 => (splitMultiLogicList cs).map (fun cs1 => c1 :: cs1)
end

mutual
/-- The function `traversePushNot`: pushes NOT to the leaves and removes NOT NOT.
`none` is one of the exceptions "Bad AND or OR function." and "Bad NOT function.". -/
def traversePushNot : AST → Bool → Option AST
  | .leaf id, add_negation =>
    some (if add_negation then makeASTFunction "not" [.leaf id] else .leaf id)
  | .func name args, add_negation =>
    if name = "and" ∨ name = "or" then
      if add_negation then
        if args.length ≠ 2 then none
        else
          (traversePushNotList args true).map
            (makeASTFunction (if name = "and" then "or" else "and"))
      else (traversePushNotList args false).map (AST.func name)
    else if name = "not" then
      match args with
      | [c] => traversePushNot c (!add_negation)
      | _ => none
    else
      some (if add_negation then makeASTFunction "not" [.func name args]
        else .func name args)
/-- The loop `for (auto & child : children) traversePushNot(child, add_negation)`. -/
def traversePushNotList : List AST → Bool → Option (List AST)
  | [], _ => some []
  | c :: cs, add_negation =>
    match traversePushNot c add_negation with
    | none => none
    | some c1 => (traversePushNotList cs add_negation).map (fun cs1 => c1 :: cs1)
end

/-- Whether a node is an `ASTFunction` named "and". -/
def isAndFunc : AST → Bool
  | .func name _ => decide (name = "and")
  | .leaf _ => false

/-- The scan of `traversePushOr` for `and_node_id`: the index of the last child
that is an "and" function, `none` when the scan leaves it at `children.size()`. -/
def lastAndIndex : List AST → Option Nat
  | [] => none
  | c :: cs =>
    match lastAndIndex cs with
    | some i => some (i + 1)
    | none => if isAndFunc c then some 0 else none

/-- The second half of `traversePushOr`, at an "or" node whose children `children`
have been processed: the distributive law and the call of `traversePushOr` (here
`recurse`) on the new node. The index `1 - and_node_id` is computed in `size_t`;
an index out of range of `children`, or of the AND node's children, is `none`. -/
def distributeOr (recurse : AST → Option AST) (children : List AST) : Option AST :=
  match lastAndIndex children with
  | none => some (.func "or" children)
  | some and_node_id =>
    if and_node_id > 1 then none
    else
      match children.get? and_node_id, children.get? (1 - and_node_id) with
      | some (.func _ (b :: c :: _)), some a =>
        recurse (makeASTFunction "and"
          [makeASTFunction "or" [a, b], makeASTFunction "or" [a, c]])
      | _, _ => none

/-- The loop `for (auto & child : children) f(child)` over the children of a node,
which ends at the first exception. -/
def mapChildren (f : AST → Option AST) : List AST → Option (List AST)
  | [] => some []
  | c :: cs =>
    match f c with
    | none => none
    | some c1 => (mapChildren f cs).map (fun cs1 => c1 :: cs1)

/-- The function `traversePushOr`: pushes OR inside AND. The first argument bounds
the depth of the recursion (`none` when it is used up), since the function calls
itself on the node it has just built. -/
def traversePushOr : Nat → AST → Option AST
  | 0, _ => none
  | _ + 1, .leaf id => some (.leaf id)
  | fuel + 1, .func name args =>
    if name = "or" ∨ name = "and" then
      match mapChildren (traversePushOr fuel) args with
      | none => none
      | some children =>
        if name = "or" then distributeOr (traversePushOr fuel) children
        else some (.func name children)
    else some (.func name args)

mutual
/-- A number that bounds the size of the tree `traversePushOr` builds: sums over
"and", products over "or", 2 at every other node. -/
def pushOrWeight : AST → Nat
  | .leaf _ => 2
  | .func name args =>
    if name = "and" then pushOrWeightSum args
    else if name = "or" then pushOrWeightProd args
    else 2
/-- Sum of the weights of a list of trees. -/
def pushOrWeightSum : List AST → Nat
  | [] => 0
  | c :: cs => pushOrWeight c + pushOrWeightSum cs
/-- Product of the weights of a list of trees. -/
def pushOrWeightProd : List AST → Nat
  | [] => 1
  | c :: cs => pushOrWeight c * pushOrWeightProd cs
end

/-- Recursion depth granted to `traversePushOr` by `toCNF`. -/
def pushOrFuel (node : AST) : Nat := 2 * pushOrWeight node

mutual
/-- The function `traverseCNF(node, and_group, or_group)`: transforms the tree into
CNF groups; the two reference parameters are returned. `none` is the exception
"Bad NOT function". -/
def traverseCNF : AST → AndGroup AST → OrGroup AST → Option (AndGroup AST × OrGroup AST)
  | .leaf id, and_group, or_group =>
    some (and_group, insert ⟨false, .leaf id⟩ or_group)
  | .func name args, and_group, or_group =>
    if name = "and" then
      (traverseCNFAnd args and_group).map (fun r => (r, or_group))
    else if name = "or" then traverseCNFOr args and_group or_group
    else if name = "not" then
      match args with
      | [c] => some (and_group, insert ⟨true, c⟩ or_group)
      | _ => none
    else some (and_group, insert ⟨false, .func name args⟩ or_group)
/-- The loop of `traverseCNF` over the children of an "and" node: a fresh group for
each child, inserted when it is not empty. -/
def traverseCNFAnd : List AST → AndGroup AST → Option (AndGroup AST)
  | [], and_group => some and_group
  | c :: cs, and_group =>
    match traverseCNF c and_group ∅ with
    | none => none
    | some (and_group1, group) =>
      traverseCNFAnd cs (if group = ∅ then and_group1 else insert group and_group1)
/-- The loop of `traverseCNF` over the children of an "or" node, all into the same
group. -/
def traverseCNFOr : List AST → AndGroup AST → OrGroup AST →
    Option (AndGroup AST × OrGroup AST)
  | [], and_group, or_group => some (and_group, or_group)
  | c :: cs, and_group, or_group =>
    match traverseCNF c and_group or_group with
    | none => none
    | some (and_group1, or_group1) => traverseCNFOr cs and_group1 or_group1
end

/-- The function `traverseCNF(node, result)`. -/
def traverseCNFTop (node : AST) (result : AndGroup AST) : Option (AndGroup AST) :=
  match traverseCNF node result ∅ with
  | none => none
  | some (result1, or_group) =>
    some (if or_group = ∅ then result1 else insert or_group result1)

/-- The function `TreeCNFConverter::toCNF`. -/
def toCNF (query : AST) : Option (CNFQuery AST) :=
  match splitMultiLogic query with
  | none => none
  | some cnf1 =>
    match traversePushNot cnf1 false with
    | none => none
    | some cnf2 =>
      match traversePushOr (pushOrFuel cnf2) cnf2 with
      | none => none
      | some cnf3 => traverseCNFTop cnf3 ∅

end DB

namespace DB

/-! ## Facts on the iteration order, needed to iterate over a set of clauses -/

theorem setElems_coe {β : Type} (r : β → β → Prop) [DecidableRel r] [IsTrans β r]
    [IsAntisymm β r] [IsTotal β r] (s : Finset β) :
    (↑(setElems r s) : Multiset β) = s.val := by
  unfold setElems
  induction s.val using Quot.inductionOn with
  | h l => exact Quot.sound (List.perm_insertionSort r l)

theorem mem_setElems {β : Type} (r : β → β → Prop) [DecidableRel r] [IsTrans β r]
    [IsAntisymm β r] [IsTotal β r] (s : Finset β) (x : β) :
    x ∈ setElems r s ↔ x ∈ s := by
  rw [← Finset.mem_val, ← setElems_coe r s]
  rfl

theorem setElems_injective {β : Type} (r : β → β → Prop) [DecidableRel r] [IsTrans β r]
    [IsAntisymm β r] [IsTotal β r] : Function.Injective (setElems r) := by
  intro s t h
  apply Finset.val_injective
  rw [← setElems_coe r s, ← setElems_coe r t, h]

theorem OrGroup.mem_elems {α : Type} [LinearOrder α] (g : OrGroup α) (x : AtomicFormula α) :
    x ∈ OrGroup.elems g ↔ x ∈ g :=
  mem_setElems _ g x

instance OrGroup.decidableLe {α : Type} [LinearOrder α] :
    DecidableRel (@OrGroup.le α _) :=
  fun g h => inferInstanceAs (Decidable (OrGroup.elems g ≤ OrGroup.elems h))

instance OrGroup.le_isTrans {α : Type} [LinearOrder α] : IsTrans (OrGroup α) OrGroup.le :=
  ⟨fun _ _ _ h1 h2 => @le_trans (List (AtomicFormula α)) _ _ _ _ h1 h2⟩

instance OrGroup.le_isAntisymm {α : Type} [LinearOrder α] :
    IsAntisymm (OrGroup α) OrGroup.le :=
  ⟨fun _ _ h1 h2 => setElems_injective _ (@le_antisymm (List (AtomicFormula α)) _ _ _ h1 h2)⟩

instance OrGroup.le_isTotal {α : Type} [LinearOrder α] : IsTotal (OrGroup α) OrGroup.le :=
  ⟨fun g h => @le_total (List (AtomicFormula α)) _ (OrGroup.elems g) (OrGroup.elems h)⟩

/-- Iteration over an `AndGroup`: its clauses in increasing order. -/
def AndGroup.elems {α : Type} [LinearOrder α] (s : AndGroup α) : List (OrGroup α) :=
  setElems OrGroup.le s

/-! ## `fromCNF` -/

/-- The body of the loop of `fromCNF` over the groups: what is pushed to
`or_groups` for `group` (`none`: nothing is pushed). The test of the inner loop is
`(*group.begin()).negative`, the flag of the first literal `first` of the group. -/
def fromCNFGroup (group : OrGroup AST) : Option AST :=
  match (OrGroup.elems group).head? with
  | none => none
  | some first =>
    if group.card = 1 then
      some (if first.negative then makeASTFunction "not" [first.ast] else first.ast)
    else if group.card > 1 then
      some (makeASTFunction "or" ((OrGroup.elems group).map (fun atom =>
        if first.negative then makeASTFunction "not" [atom.ast] else atom.ast)))
    else none

/-- The function `TreeCNFConverter::fromCNF`; `none` is `nullptr`. -/
def fromCNF (cnf : CNFQuery AST) : Option AST :=
  if cnf = ∅ then none
  else
    match (AndGroup.elems cnf).filterMap fromCNFGroup with
    | [group] => some group
    | or_groups => some (makeASTFunction "and" or_groups)

/-! ## Polarity of atoms -/

/-- The function `pushPullNotInAtom`; the `std::map` is the list of its entries. -/
def pushPullNotInAtom (atom : AtomicFormula AST) (inverse_relations : List (String × String)) :
    AtomicFormula AST :=
  match atom.ast with
  | .leaf _ => atom
  | .func name args =>
    match inverse_relations.lookup name with
    | some inverse => ⟨!atom.negative, .func inverse args⟩
    | none => atom

/-- The table `inverse_relations` of `pullNotOut`. -/
def pullNotOutRelations : List (String × String) :=
  [("notEquals", "equals"), ("greaterOrEquals", "less"), ("greater", "lessOrEquals"),
   ("notIn", "in"), ("notLike", "like"), ("notEmpty", "empty")]

/-- The function `pullNotOut`. -/
def pullNotOut (atom : AtomicFormula AST) : AtomicFormula AST :=
  pushPullNotInAtom atom pullNotOutRelations

/-- The table `inverse_relations` of `pushNotIn`. -/
def pushNotInRelations : List (String × String) :=
  [("equals", "notEquals"), ("less", "greaterOrEquals"), ("lessOrEquals", "greater"),
   ("in", "notIn"), ("like", "notLike"), ("empty", "notEmpty"),
   ("notEquals", "equals"), ("greaterOrEquals", "less"), ("greater", "lessOrEquals"),
   ("notIn", "in"), ("notLike", "like"), ("notEmpty", "empty")]

/-- The function `pushNotIn`. -/
def pushNotIn (atom : AtomicFormula AST) : AtomicFormula AST :=
  if !atom.negative then atom else pushPullNotInAtom atom pushNotInRelations

/-- Modelled from the spec: `CNFQuery::transformAtoms`, declared in the header, which
is not under `src/`: "map over every literal in every clause, rebuild the CNF value". -/
def transformAtoms {α : Type} [LinearOrder α] (cnf : CNFQuery α)
    (f : AtomicFormula α → AtomicFormula α) : CNFQuery α :=
  cnf.image (fun group => group.image f)

/-- The function `CNFQuery::pullNotOutFunctions`. -/
def pullNotOutFunctions (cnf : CNFQuery AST) : CNFQuery AST :=
  transformAtoms cnf pullNotOut

/-- The function `CNFQuery::pushNotInFuntions`. -/
def pushNotInFuntions (cnf : CNFQuery AST) : CNFQuery AST :=
  transformAtoms cnf pushNotIn

/-! ## Reduction of a CNF value -/

/-- The literal `negative_atom` of `reduceOnce`: a copy of `atom` with the flag
inverted. -/
def AtomicFormula.negated {α : Type} (atom : AtomicFormula α) : AtomicFormula α :=
  ⟨!atom.negative, atom.ast⟩

/-- The inner loop of `reduceOnce` over the literals still to visit; `copy` is the
working copy of the group as the previous iterations left it. The result is the
group inserted into `result` when the loop breaks, `none` when it runs to its end. -/
def reduceOnceScan {α : Type} [LinearOrder α] (groups : AndGroup α) :
    List (AtomicFormula α) → OrGroup α → Option (OrGroup α)
  | [], _ => none
  | atom :: rest, copy =>
    if insert atom.negated (copy.erase atom) ∈ groups then
      some ((insert atom.negated (copy.erase atom)).erase atom.negated)
    else
      reduceOnceScan groups rest
        (insert atom ((insert atom.negated (copy.erase atom)).erase atom.negated))

/-- The body of the outer loop of `reduceOnce`: the group inserted into `result`
for `group`. -/
def reduceOnceGroup {α : Type} [LinearOrder α] (groups : AndGroup α) (group : OrGroup α) :
    OrGroup α :=
  match reduceOnceScan groups (OrGroup.elems group) group with
  | some copy => copy
  | none => group

/-- The function `reduceOnce`. -/
def reduceOnce {α : Type} [LinearOrder α] (groups : AndGroup α) : AndGroup α :=
  groups.image (reduceOnceGroup groups)

/-- The function `isSubset`. -/
def isSubset {α : Type} [LinearOrder α] (left right : OrGroup α) : Bool :=
  if left.card > right.card then false
  else decide (∀ elem ∈ left, elem ∈ right)

/-- The function `filterSubsets`. -/
def filterSubsets {α : Type} [LinearOrder α] (groups : AndGroup α) : AndGroup α :=
  groups.filter (fun group =>
    ¬ ∃ other_group ∈ groups, isSubset other_group group = true ∧ group ≠ other_group)

/-- Total number of literals of a CNF value; it decreases with every pass of the
loop of `reduce` that does not leave the loop. -/
def AndGroup.weight {α : Type} [LinearOrder α] (groups : AndGroup α) : Nat :=
  ∑ group ∈ groups, group.card

/-! ### The loop of `reduce` ends -/

theorem reduceOnceScan_ssubset {α : Type} [LinearOrder α] (groups : AndGroup α)
    (group : OrGroup α) :
    ∀ (atoms : List (AtomicFormula α)) (copy c : OrGroup α), copy ⊆ group →
      (∀ x ∈ atoms, x ∈ group) → reduceOnceScan groups atoms copy = some c → c ⊂ group := by
  intro atoms
  induction atoms with
  | nil => intro copy c _ _ h; simp [reduceOnceScan] at h
  | cons atom rest ih =>
    intro copy c hcopy hatoms h
    have hatom : atom ∈ group := hatoms atom (List.mem_cons_self _ _)
    have hsub : (insert atom.negated (copy.erase atom)).erase atom.negated ⊆ copy.erase atom := by
      intro x hx
      rw [Finset.mem_erase, Finset.mem_insert] at hx
      rcases hx with ⟨h1, h2 | h2⟩
      · exact absurd h2 h1
      · exact h2
    rw [reduceOnceScan] at h
    split at h
    · injection h with h
      subst h
      refine ⟨fun x hx => hcopy (Finset.erase_subset _ _ (hsub hx)), fun hcon => ?_⟩
      have h1 := hsub (hcon hatom)
      simp at h1
    · refine ih _ c ?_ (fun x hx => hatoms x (List.mem_cons_of_mem _ hx)) h
      intro x hx
      rw [Finset.mem_insert] at hx
      rcases hx with hx | hx
      · rw [hx]; exact hatom
      · exact hcopy (Finset.erase_subset _ _ (hsub hx))

theorem reduceOnceGroup_eq_or_ssubset {α : Type} [LinearOrder α] (groups : AndGroup α)
    (group : OrGroup α) :
    reduceOnceGroup groups group = group ∨ reduceOnceGroup groups group ⊂ group := by
  unfold reduceOnceGroup
  cases h : reduceOnceScan groups (OrGroup.elems group) group with
  | none => exact Or.inl rfl
  | some c =>
    exact Or.inr (reduceOnceScan_ssubset groups group _ group c (Finset.Subset.refl _)
      (fun x hx => (OrGroup.mem_elems group x).mp hx) h)

theorem reduceOnceGroup_subset {α : Type} [LinearOrder α] (groups : AndGroup α)
    (group : OrGroup α) : reduceOnceGroup groups group ⊆ group := by
  rcases reduceOnceGroup_eq_or_ssubset groups group with h | h
  · rw [h]
  · exact h.1

theorem sum_image_le_sum {β γ : Type} [DecidableEq γ] (f : β → γ) (w : γ → ℕ)
    (s : Finset β) : ∑ y ∈ s.image f, w y ≤ ∑ x ∈ s, w (f x) := by
  classical
  induction s using Finset.induction_on with
  | empty => simp
  | insert hx ih =>
    rename_i x t
    rw [Finset.image_insert, Finset.sum_insert hx]
    by_cases hm : f x ∈ t.image f
    · rw [Finset.insert_eq_of_mem hm]
      exact le_trans ih (Nat.le_add_left _ _)
    · rw [Finset.sum_insert hm]
      exact Nat.add_le_add_left ih _

theorem reduceOnce_weight_lt {α : Type} [LinearOrder α] (groups : AndGroup α)
    (h : ¬ groups = reduceOnce groups) :
    AndGroup.weight (reduceOnce groups) < AndGroup.weight groups := by
  have hex : ∃ g ∈ groups, reduceOnceGroup groups g ≠ g := by
    by_contra hcon
    push_neg at hcon
    apply h
    unfold reduceOnce
    conv_lhs => rw [← @Finset.image_id _ groups _]
    exact Finset.image_congr (fun g hg => (hcon g hg).symm)
  unfold AndGroup.weight reduceOnce
  refine lt_of_le_of_lt (sum_image_le_sum (reduceOnceGroup groups) Finset.card groups) ?_
  apply Finset.sum_lt_sum
  · intro g _
    exact Finset.card_le_card (reduceOnceGroup_subset groups g)
  · obtain ⟨g, hg, hne⟩ := hex
    refine ⟨g, hg, Finset.card_lt_card ?_⟩
    rcases reduceOnceGroup_eq_or_ssubset groups g with h1 | h1
    · exact absurd h1 hne
    · exact h1

/-- The function `CNFQuery::reduce`: the loop `while (true)` is the recursion, which
ends because every pass that does not return removes a literal. -/
def reduce {α : Type} [LinearOrder α] (statements : CNFQuery α) : CNFQuery α :=
  if h : statements = reduceOnce statements then filterSubsets statements
  else
    have : AndGroup.weight (reduceOnce statements) < AndGroup.weight statements :=
      reduceOnce_weight_lt statements h
    reduce (reduceOnce statements)
termination_by AndGroup.weight statements

theorem reduce_unfold {α : Type} [LinearOrder α] (s : CNFQuery α) :
    reduce s = if s = reduceOnce s then filterSubsets s else reduce (reduceOnce s) := by
  rw [reduce]
  by_cases h : s = reduceOnce s
  · rw [dif_pos h, if_pos h]
  · rw [dif_neg h, if_neg h]

/-! ## Truth values -/

mutual
/-- Truth value of an expression under a valuation `v` of the atoms: "and", "or"
and "not" (of one operand) are the connectives, every other node is an atom. (A
"not" node without exactly one operand has no meaning; `toCNF` throws on it, and
its value is set to `false`.) -/
def evalAST (v : AST → Bool) : AST → Bool
  | .leaf id => v (.leaf id)
  | .func name args =>
    if name = "and" then evalAll v args
    else if name = "or" then evalAny v args
    else if name = "not" then
      match args with
      | [c] => !evalAST v c
      | _ => false
    else v (.func name args)
/-- Conjunction of the values of a list of expressions. -/
def evalAll (v : AST → Bool) : List AST → Bool
  | [] => true
  | c :: cs => evalAST v c && evalAll v cs
/-- Disjunction of the values of a list of expressions. -/
def evalAny (v : AST → Bool) : List AST → Bool
  | [] => false
  | c :: cs => evalAST v c || evalAny v cs
end

/-- Truth value of a literal `(p, negated)`: true iff the value of `p` differs from
`negated`. -/
def evalAtom {α : Type} (v : α → Bool) (atom : AtomicFormula α) : Bool :=
  v atom.ast != atom.negative

/-- Truth value of a clause: the disjunction of its literals. -/
def evalGroup {α : Type} [LinearOrder α] (v : α → Bool) (group : OrGroup α) : Bool :=
  decide (∃ atom ∈ group, evalAtom v atom = true)

/-- Truth value of a CNF value: the conjunction of its clauses. -/
def evalCNF {α : Type} [LinearOrder α] (v : α → Bool) (cnf : CNFQuery α) : Bool :=
  decide (∀ group ∈ cnf, evalGroup v group = true)

/-! ## Shapes of expressions -/

/-- An atom: a node that is not an "and", "or" or "not" function. -/
def IsAtom : AST → Prop
  | .leaf _ => True
  | .func name _ => name ≠ "and" ∧ name ≠ "or" ∧ name ≠ "not"

instance IsAtom.decidable : DecidablePred IsAtom := fun t =>
  match t with
  | .leaf _ => isTrue trivial
  | .func name _ => inferInstanceAs (Decidable (name ≠ "and" ∧ name ≠ "or" ∧ name ≠ "not"))

mutual
/-- Whether the expression has, reachable from the root through "and", "or" and
"not" nodes only, an "and" or "or" node with fewer than two children or a "not" node
whose number of children is not one. -/
def hasMalformed : AST → Bool
  | .leaf _ => false
  | .func name args =>
    if name = "and" ∨ name = "or" then decide (args.length < 2) || hasMalformedList args
    else if name = "not" then decide (args.length ≠ 1) || hasMalformedList args
    else false
/-- Whether one expression of the list has such a node. -/
def hasMalformedList : List AST → Bool
  | [] => false
  | c :: cs => hasMalformed c || hasMalformedList cs
end

mutual
/-- Whether an "and" or "or" node with fewer than two children is reachable through
"and", "or" and "not" nodes. -/
def hasBadLogic : AST → Bool
  | .leaf _ => false
  | .func name args =>
    if name = "and" ∨ name = "or" then decide (args.length < 2) || hasBadLogicList args
    else if name = "not" then hasBadLogicList args
    else false
/-- Whether one expression of the list has such a node. -/
def hasBadLogicList : List AST → Bool
  | [] => false
  | c :: cs => hasBadLogic c || hasBadLogicList cs
end

mutual
/-- Whether a "not" node whose number of children is not one is reachable through
"and", "or" and "not" nodes. -/
def hasBadNot : AST → Bool
  | .leaf _ => false
  | .func name args =>
    if name = "and" ∨ name = "or" then hasBadNotList args
    else if name = "not" then decide (args.length ≠ 1) || hasBadNotList args
    else false
/-- Whether one expression of the list has such a node. -/
def hasBadNotList : List AST → Bool
  | [] => false
  | c :: cs => hasBadNot c || hasBadNotList cs
end

mutual
/-- Whether every "and" and "or" node reachable through "and", "or" and "not" nodes
has exactly two children. -/
def isBinary : AST → Bool
  | .leaf _ => true
  | .func name args =>
    if name = "and" ∨ name = "or" then decide (args.length = 2) && isBinaryList args
    else if name = "not" then isBinaryList args
    else true
/-- Whether every expression of the list is binary. -/
def isBinaryList : List AST → Bool
  | [] => true
  | c :: cs => isBinary c && isBinaryList cs
end

/-- A literal: an atom, or "not" of one atom. -/
inductive IsLit : AST → Prop
  | atom (t : AST) : IsAtom t → IsLit t
  | not (t : AST) : IsAtom t → IsLit (.func "not" [t])

/-- Negation normal form over binary connectives: "not" only above atoms. -/
inductive IsNNF : AST → Prop
  | lit (t : AST) : IsLit t → IsNNF t
  | and (x y : AST) : IsNNF x → IsNNF y → IsNNF (.func "and" [x, y])
  | or (x y : AST) : IsNNF x → IsNNF y → IsNNF (.func "or" [x, y])

/-- A clause tree: binary "or" nodes over literals. -/
inductive IsClause : AST → Prop
  | lit (t : AST) : IsLit t → IsClause t
  | or (x y : AST) : IsClause x → IsClause y → IsClause (.func "or" [x, y])

/-- CNF shape: binary "and" nodes over clause trees (no "and" below an "or"). -/
inductive IsCNF : AST → Prop
  | clause (t : AST) : IsClause t → IsCNF t
  | and (x y : AST) : IsCNF x → IsCNF y → IsCNF (.func "and" [x, y])

mutual
/-- Number of nodes of the "and"/"or" skeleton of an expression (every other node
counts for one). -/
def logicSize : AST → Nat
  | .leaf _ => 1
  | .func name args =>
    if name = "and" ∨ name = "or" then 1 + logicSizeList args else 1
/-- Sum of the sizes of a list of expressions. -/
def logicSizeList : List AST → Nat
  | [] => 0
  | c :: cs => logicSize c + logicSizeList cs
end


/-! ## The Binarizer -/

theorem isBinary_logic (name : String) (hn : name = "and" ∨ name = "or") (x y : AST) :
    isBinary (.func name [x, y]) = (isBinary x && isBinary y) := by
  simp [isBinary, isBinaryList, hn]

theorem hasBadNot_logic (name : String) (hn : name = "and" ∨ name = "or") (args : List AST) :
    hasBadNot (.func name args) = hasBadNotList args := by
  simp [hasBadNot, hn]

theorem evalAST_func (v : AST → Bool) (name : String) (args : List AST) :
    evalAST v (.func name args) =
      if name = "and" then evalAll v args
      else if name = "or" then evalAny v args
      else if name = "not" then
        match args with
        | [c] => !evalAST v c
        | _ => false
      else v (.func name args) := by
  rw [evalAST.eq_def]

theorem evalAST_and (v : AST → Bool) (args : List AST) :
    evalAST v (.func "and" args) = evalAll v args := by
  simp [evalAST_func]

theorem evalAST_or (v : AST → Bool) (args : List AST) :
    evalAST v (.func "or" args) = evalAny v args := by
  simp [evalAST_func]

theorem evalAST_not (v : AST → Bool) (c : AST) :
    evalAST v (.func "not" [c]) = !evalAST v c := by
  simp [evalAST_func]

theorem evalAST_atom (v : AST → Bool) (t : AST) (h : IsAtom t) : evalAST v t = v t := by
  cases t with
  | leaf id => simp [evalAST]
  | func name args =>
    obtain ⟨h1, h2, h3⟩ := h
    simp [evalAST_func, h1, h2, h3]

/-- The chain built by `splitMultiLogic` from processed children. -/
theorem chain_isBinary (name : String) (hn : name = "and" ∨ name = "or") :
    ∀ (cs : List AST) (c0 : AST), isBinary c0 = true → isBinaryList cs = true →
      isBinary (cs.foldl (fun res c => makeASTFunction name [res, c]) c0) = true := by
  intro cs
  induction cs with
  | nil => intro c0 h0 _; simpa using h0
  | cons c cs ih =>
    intro c0 h0 h1
    simp only [isBinaryList, Bool.and_eq_true] at h1
    simp only [List.foldl_cons]
    apply ih _ _ h1.2
    simp [makeASTFunction, isBinary_logic name hn, h0, h1.1]

theorem chain_hasBadNot (name : String) (hn : name = "and" ∨ name = "or") :
    ∀ (cs : List AST) (c0 : AST),
      hasBadNot (cs.foldl (fun res c => makeASTFunction name [res, c]) c0) =
        (hasBadNot c0 || hasBadNotList cs) := by
  intro cs
  induction cs with
  | nil => intro c0; simp [hasBadNotList]
  | cons c cs ih =>
    intro c0
    simp only [List.foldl_cons]
    rw [ih]
    simp [makeASTFunction, hasBadNot_logic name hn, hasBadNotList, Bool.or_assoc]

theorem chain_eval_and (v : AST → Bool) :
    ∀ (cs : List AST) (c0 : AST),
      evalAST v (cs.foldl (fun res c => makeASTFunction "and" [res, c]) c0) =
        (evalAST v c0 && evalAll v cs) := by
  intro cs
  induction cs with
  | nil => intro c0; simp [evalAll]
  | cons c cs ih =>
    intro c0
    simp only [List.foldl_cons]
    rw [ih]
    simp [makeASTFunction, evalAST_and, evalAll, Bool.and_assoc]

theorem chain_eval_or (v : AST → Bool) :
    ∀ (cs : List AST) (c0 : AST),
      evalAST v (cs.foldl (fun res c => makeASTFunction "or" [res, c]) c0) =
        (evalAST v c0 || evalAny v cs) := by
  intro cs
  induction cs with
  | nil => intro c0; simp [evalAny]
  | cons c cs ih =>
    intro c0
    simp only [List.foldl_cons]
    rw [ih]
    simp [makeASTFunction, evalAST_or, evalAny, Bool.or_assoc]

theorem evalAll_eq_all (v : AST → Bool) :
    ∀ ts : List AST, evalAll v ts = (ts.map (evalAST v)).all id := by
  intro ts
  induction ts with
  | nil => simp [evalAll]
  | cons c cs ih => simp [evalAll, ih]

theorem evalAny_eq_any (v : AST → Bool) :
    ∀ ts : List AST, evalAny v ts = (ts.map (evalAST v)).any id := by
  intro ts
  induction ts with
  | nil => simp [evalAny]
  | cons c cs ih => simp [evalAny, ih]

theorem evalAST_not_func (v : AST → Bool) (ts : List AST) :
    evalAST v (.func "not" ts) =
      match ts.map (evalAST v) with
      | [b] => !b
      | _ => false := by
  rw [evalAST_func]
  match ts with
  | [] => simp
  | [c] => simp
  | _ :: _ :: _ => simp

theorem evalAST_congr (v : AST → Bool) (name : String)
    (hn : name = "and" ∨ name = "or" ∨ name = "not") (ts ts' : List AST)
    (h : ts'.map (evalAST v) = ts.map (evalAST v)) :
    evalAST v (.func name ts') = evalAST v (.func name ts) := by
  rcases hn with hn | hn | hn
  · subst hn; rw [evalAST_and, evalAST_and, evalAll_eq_all, evalAll_eq_all, h]
  · subst hn; rw [evalAST_or, evalAST_or, evalAny_eq_any, evalAny_eq_any, h]
  · subst hn; rw [evalAST_not_func, evalAST_not_func, h]

theorem chain_eval (v : AST → Bool) (name : String) (hn : name = "and" ∨ name = "or")
    (c0 : AST) (cs : List AST) :
    evalAST v (cs.foldl (fun res c => makeASTFunction name [res, c]) c0) =
      evalAST v (.func name (c0 :: cs)) := by
  rcases hn with hn | hn
  · subst hn; rw [chain_eval_and, evalAST_and, evalAll]
  · subst hn; rw [chain_eval_or, evalAST_or, evalAny]

theorem splitMultiLogic_func (name : String) (args : List AST) :
    splitMultiLogic (.func name args) =
      if name = "and" ∨ name = "or" then
        if args.length < 2 then none
        else
          match splitMultiLogicList args with
          | none => none
          | some [] => none
          | some (c0 :: cs) =>
            if args.length > 2 then
              some (cs.foldl (fun res c => makeASTFunction name [res, c]) c0)
            else some (.func name (c0 :: cs))
      else if name = "not" then
        (splitMultiLogicList args).map (AST.func name)
      else some (.func name args) := by
  rw [splitMultiLogic.eq_def]

/-- On a list of two or more processed children the result of `splitMultiLogic` is
the chain, whether the node was rebuilt or not. -/
theorem splitMultiLogic_logic (name : String) (hn : name = "and" ∨ name = "or")
    (args : List AST) (hl : ¬ args.length < 2) (c0 : AST) (cs : List AST)
    (hs : splitMultiLogicList args = some (c0 :: cs)) (hlen : (c0 :: cs).length = args.length) :
    splitMultiLogic (.func name args) =
      some (cs.foldl (fun res c => makeASTFunction name [res, c]) c0) := by
  rw [splitMultiLogic_func, if_pos hn, if_neg hl, hs]
  simp only
  by_cases h2 : args.length > 2
  · rw [if_pos h2]
  · rw [if_neg h2]
    have h3 : cs.length = 1 := by simp at hlen; omega
    match cs, h3 with
    | [c1], _ => simp [makeASTFunction]

mutual
theorem splitMultiLogic_spec : ∀ (t : AST),
    (hasBadLogic t = true → splitMultiLogic t = none) ∧
    (hasBadLogic t = false → ∃ t', splitMultiLogic t = some t' ∧ isBinary t' = true ∧
        hasBadNot t' = hasBadNot t ∧ ∀ v, evalAST v t' = evalAST v t)
  | .leaf id => by simp [hasBadLogic, splitMultiLogic, isBinary]
  | .func name args => by
    have ih := splitMultiLogicList_spec args
    by_cases hn : name = "and" ∨ name = "or"
    · by_cases hl : args.length < 2
      · simp [hasBadLogic, splitMultiLogic_func, hn, hl]
      · constructor
        · intro hb
          have hb2 : hasBadLogicList args = true := by
            simpa [hasBadLogic, hn, hl] using hb
          rw [splitMultiLogic_func, if_pos hn, if_neg hl, ih.1 hb2]
        · intro hb
          have hb2 : hasBadLogicList args = false := by
            simpa [hasBadLogic, hn, hl] using hb
          obtain ⟨ts, h1, h2, h3, h4, h5⟩ := ih.2 hb2
          match ts, h1, h2, h3, h4, h5 with
          | [], _, h2, _, _, _ => simp at h2; omega
          | c0 :: cs, h1, h2, h3, h4, h5 =>
            refine ⟨_, splitMultiLogic_logic name hn args hl c0 cs h1 h2, ?_, ?_, ?_⟩
            · simp only [isBinaryList, Bool.and_eq_true] at h3
              exact chain_isBinary name hn cs c0 h3.1 h3.2
            · rw [chain_hasBadNot name hn, hasBadNot_logic name hn, ← h4, hasBadNotList]
            · intro v
              rw [chain_eval v name hn]
              exact evalAST_congr v name (by tauto) _ _ (h5 v)
    · by_cases hnot : name = "not"
      · subst hnot
        constructor
        · intro hb
          have hb2 : hasBadLogicList args = true := by
            simpa [hasBadLogic] using hb
          simp [splitMultiLogic_func, ih.1 hb2]
        · intro hb
          have hb2 : hasBadLogicList args = false := by
            simpa [hasBadLogic] using hb
          obtain ⟨ts, h1, h2, h3, h4, h5⟩ := ih.2 hb2
          refine ⟨.func "not" ts, by simp [splitMultiLogic_func, h1], ?_, ?_, ?_⟩
          · simpa [isBinary] using h3
          · simp [hasBadNot, h2, h4]
          · intro v
            exact evalAST_congr v "not" (by tauto) _ _ (h5 v)
      · simp [hasBadLogic, splitMultiLogic_func, hn, hnot, isBinary]
theorem splitMultiLogicList_spec : ∀ (ts : List AST),
    (hasBadLogicList ts = true → splitMultiLogicList ts = none) ∧
    (hasBadLogicList ts = false → ∃ ts', splitMultiLogicList ts = some ts' ∧
        ts'.length = ts.length ∧ isBinaryList ts' = true ∧
        hasBadNotList ts' = hasBadNotList ts ∧
        ∀ v, ts'.map (evalAST v) = ts.map (evalAST v))
  | [] => by simp [hasBadLogicList, splitMultiLogicList, isBinaryList]
  | c :: cs => by
    have ih1 := splitMultiLogic_spec c
    have ih2 := splitMultiLogicList_spec cs
    constructor
    · intro hb
      simp only [hasBadLogicList, Bool.or_eq_true] at hb
      rw [splitMultiLogicList]
      by_cases hc : hasBadLogic c = true
      · rw [ih1.1 hc]
      · have hc2 : hasBadLogic c = false := by simpa using hc
        obtain ⟨c1, h1, _⟩ := ih1.2 hc2
        rw [h1]
        have hcs : hasBadLogicList cs = true := by tauto
        simp [ih2.1 hcs]
    · intro hb
      simp only [hasBadLogicList, Bool.or_eq_false_iff] at hb
      obtain ⟨c1, h1, h2, h3, h4⟩ := ih1.2 hb.1
      obtain ⟨cs1, g1, g2, g3, g4, g5⟩ := ih2.2 hb.2
      refine ⟨c1 :: cs1, by simp [splitMultiLogicList, h1, g1], by simp [g2], ?_, ?_, ?_⟩
      · simp [isBinaryList, h2, g3]
      · simp [hasBadNotList, h3, g4]
      · intro v
        simp [h4 v, g5 v]
end


/-! ## The Negation Pusher -/

theorem traversePushNot_func (name : String) (args : List AST) (add_negation : Bool) :
    traversePushNot (.func name args) add_negation =
      if name = "and" ∨ name = "or" then
        if add_negation then
          if args.length ≠ 2 then none
          else
            (traversePushNotList args true).map
              (makeASTFunction (if name = "and" then "or" else "and"))
        else (traversePushNotList args false).map (AST.func name)
      else if name = "not" then
        match args with
        | [c] => traversePushNot c (!add_negation)
        | _ => none
      else
        some (if add_negation then makeASTFunction "not" [.func name args]
          else .func name args) := by
  rw [traversePushNot.eq_def]

theorem traversePushNot_logic (name : String) (hn : name = "and" ∨ name = "or") (x y : AST)
    (neg : Bool) :
    traversePushNot (.func name [x, y]) neg =
      match traversePushNot x neg, traversePushNot y neg with
      | some x1, some y1 =>
        some (.func (if neg then (if name = "and" then "or" else "and") else name) [x1, y1])
      | _, _ => none := by
  rw [traversePushNot_func, if_pos hn]
  cases neg
  · simp only [traversePushNotList, makeASTFunction]
    cases traversePushNot x false <;> cases traversePushNot y false <;> simp
  · simp only [traversePushNotList]
    cases traversePushNot x true <;> cases traversePushNot y true <;> simp [makeASTFunction]

theorem evalAST_logic_neg (v : AST → Bool) (name : String) (hn : name = "and" ∨ name = "or")
    (neg : Bool) (x y x1 y1 : AST) (hx : evalAST v x1 = xor neg (evalAST v x))
    (hy : evalAST v y1 = xor neg (evalAST v y)) :
    evalAST v (.func (if neg then (if name = "and" then "or" else "and") else name) [x1, y1]) =
      xor neg (evalAST v (.func name [x, y])) := by
  rcases hn with hn | hn <;> subst hn <;> cases neg <;>
    simp [evalAST_and, evalAST_or, evalAll, evalAny, hx, hy]

theorem isNNF_logic (name : String) (hn : name = "and" ∨ name = "or") (neg : Bool)
    (x y : AST) (hx : IsNNF x) (hy : IsNNF y) :
    IsNNF (.func (if neg then (if name = "and" then "or" else "and") else name) [x, y]) := by
  rcases hn with hn | hn <;> subst hn <;> cases neg <;> simp <;>
    first | exact IsNNF.and x y hx hy | exact IsNNF.or x y hx hy

theorem traversePushNot_spec : ∀ (t : AST) (neg : Bool), isBinary t = true →
    (hasBadNot t = true → traversePushNot t neg = none) ∧
    (hasBadNot t = false → ∃ t', traversePushNot t neg = some t' ∧ IsNNF t' ∧
        ∀ v, evalAST v t' = xor neg (evalAST v t))
  | .leaf id, neg, _ => by
    refine ⟨by simp [hasBadNot], fun _ => ?_⟩
    cases neg
    · exact ⟨.leaf id, by simp [traversePushNot],
        IsNNF.lit _ (IsLit.atom (.leaf id) trivial), by simp⟩
    · exact ⟨.func "not" [.leaf id], by simp [traversePushNot, makeASTFunction],
        IsNNF.lit _ (IsLit.not (.leaf id) trivial), by simp [evalAST_not]⟩
  | .func name args, neg, hb => by
    by_cases hn : name = "and" ∨ name = "or"
    · have hlen : args.length = 2 := by
        simp only [isBinary, if_pos hn, Bool.and_eq_true, decide_eq_true_eq] at hb
        exact hb.1
      match args, hlen, hb with
      | [x, y], _, hb =>
        rw [isBinary_logic name hn, Bool.and_eq_true] at hb
        have ihx := traversePushNot_spec x neg hb.1
        have ihy := traversePushNot_spec y neg hb.2
        rw [hasBadNot_logic name hn, traversePushNot_logic name hn]
        simp only [hasBadNotList, Bool.or_false]
        constructor
        · intro h
          by_cases hx : hasBadNot x = true
          · rw [ihx.1 hx]
          · have hy : hasBadNot y = true := by
              rcases Bool.or_eq_true_iff.mp h with h | h
              · exact absurd h hx
              · exact h
            rw [ihy.1 hy]
            cases traversePushNot x neg <;> rfl
        · intro h
          rw [Bool.or_eq_false_iff] at h
          obtain ⟨x1, h1, h2, h3⟩ := ihx.2 h.1
          obtain ⟨y1, g1, g2, g3⟩ := ihy.2 h.2
          rw [h1, g1]
          exact ⟨_, rfl, isNNF_logic name hn neg x1 y1 h2 g2,
            fun v => evalAST_logic_neg v name hn neg x y x1 y1 (h3 v) (g3 v)⟩
    · by_cases hnot : name = "not"
      · subst hnot
        match args, hb with
        | [], _ => simp [hasBadNot, traversePushNot_func]
        | [c], hb =>
          have hbc : isBinary c = true := by simpa [isBinary, isBinaryList] using hb
          have ih := traversePushNot_spec c (!neg) hbc
          have e1 : hasBadNot (.func "not" [c]) = hasBadNot c := by
            simp [hasBadNot, hasBadNotList]
          have e2 : traversePushNot (.func "not" [c]) neg = traversePushNot c (!neg) := by
            simp [traversePushNot_func]
          rw [e1, e2]
          refine ⟨ih.1, fun h => ?_⟩
          obtain ⟨t1, h1, h2, h3⟩ := ih.2 h
          refine ⟨t1, h1, h2, fun v => ?_⟩
          rw [h3 v, evalAST_not]
          cases neg <;> cases evalAST v c <;> rfl
        | _ :: _ :: _, _ => simp [hasBadNot, traversePushNot_func]
      · have hat : IsAtom (.func name args) := by
          simp only [IsAtom]
          tauto
        refine ⟨by simp [hasBadNot, hn, hnot], fun _ => ?_⟩
        rw [traversePushNot_func, if_neg hn, if_neg hnot]
        cases neg
        · exact ⟨_, rfl, IsNNF.lit _ (IsLit.atom _ hat), by simp⟩
        · exact ⟨_, rfl, IsNNF.lit _ (IsLit.not _ hat), by simp [makeASTFunction, evalAST_not]⟩


/-! ## The Disjunction Distributor -/

theorem traversePushOr_logic (name : String) (hn : name = "or" ∨ name = "and") (x y : AST)
    (n : Nat) :
    traversePushOr (n + 1) (.func name [x, y]) =
      match traversePushOr n x, traversePushOr n y with
      | some x1, some y1 =>
        if name = "or" then distributeOr (traversePushOr n) [x1, y1]
        else some (.func name [x1, y1])
      | _, _ => none := by
  rw [traversePushOr, if_pos hn]
  cases h1 : traversePushOr n x <;> cases h2 : traversePushOr n y <;>
    simp [mapChildren, h1, h2]

theorem traversePushOr_lit (t : AST) (h : IsLit t) (n : Nat) :
    traversePushOr (n + 1) t = some t := by
  cases h with
  | atom _ ha =>
    cases t with
    | leaf id => rfl
    | func name args =>
      obtain ⟨h1, h2, _⟩ := ha
      rw [traversePushOr, if_neg (by tauto)]
  | not c _ => rw [traversePushOr, if_neg (by decide)]

theorem isAndFunc_lit (t : AST) (h : IsLit t) : isAndFunc t = false := by
  cases h with
  | atom _ ha =>
    cases t with
    | leaf id => rfl
    | func name args => simpa [isAndFunc] using ha.1
  | not c _ => simp [isAndFunc]

theorem isAndFunc_clause (t : AST) (h : IsClause t) : isAndFunc t = false := by
  cases h with
  | lit _ hl => exact isAndFunc_lit t hl
  | or x y _ _ => simp [isAndFunc]

theorem logicSize_logic (name : String) (hn : name = "and" ∨ name = "or") (x y : AST) :
    logicSize (.func name [x, y]) = 1 + (logicSize x + logicSize y) := by
  simp [logicSize, logicSizeList, hn]

theorem logicSize_lit (t : AST) (h : IsLit t) : logicSize t = 1 := by
  cases h with
  | atom _ ha =>
    cases t with
    | leaf id => simp [logicSize]
    | func name args =>
      obtain ⟨h1, h2, _⟩ := ha
      simp [logicSize, h1, h2]
  | not c _ => simp [logicSize]

theorem logicSize_pos : ∀ t : AST, 1 ≤ logicSize t := by
  intro t
  cases t with
  | leaf id => simp [logicSize]
  | func name args =>
    rw [logicSize]
    split <;> omega

theorem traversePushOr_clause (t : AST) (h : IsClause t) :
    ∀ n, logicSize t ≤ n → traversePushOr n t = some t := by
  induction h with
  | lit t hl =>
    intro n hn
    have := logicSize_pos t
    obtain ⟨m, rfl⟩ : ∃ m, n = m + 1 := ⟨n - 1, by omega⟩
    exact traversePushOr_lit t hl m
  | or x y hx hy ihx ihy =>
    intro n hn
    rw [logicSize_logic "or" (by tauto)] at hn
    obtain ⟨m, rfl⟩ : ∃ m, n = m + 1 := ⟨n - 1, by omega⟩
    rw [traversePushOr_logic "or" (by tauto), ihx m (by omega), ihy m (by omega)]
    simp [distributeOr, lastAndIndex, isAndFunc_clause x hx, isAndFunc_clause y hy]

theorem traversePushOr_cnf (t : AST) (h : IsCNF t) :
    ∀ n, logicSize t ≤ n → traversePushOr n t = some t := by
  induction h with
  | clause t hc => exact traversePushOr_clause t hc
  | and x y hx hy ihx ihy =>
    intro n hn
    rw [logicSize_logic "and" (by tauto)] at hn
    obtain ⟨m, rfl⟩ : ∃ m, n = m + 1 := ⟨n - 1, by omega⟩
    rw [traversePushOr_logic "and" (by tauto), ihx m (by omega), ihy m (by omega)]
    simp

theorem distributeOr_right (f : AST → Option AST) (a b1 b2 : AST) :
    distributeOr f [a, .func "and" [b1, b2]] =
      f (.func "and" [.func "or" [a, b1], .func "or" [a, b2]]) := by
  simp [distributeOr, lastAndIndex, isAndFunc, makeASTFunction]

theorem distributeOr_left (f : AST → Option AST) (a1 a2 b : AST) (hb : isAndFunc b = false) :
    distributeOr f [.func "and" [a1, a2], b] =
      f (.func "and" [.func "or" [b, a1], .func "or" [b, a2]]) := by
  have h1 : lastAndIndex [.func "and" [a1, a2], b] = some 0 := by
    simp only [lastAndIndex, hb]
    simp [isAndFunc]
  simp [distributeOr, h1, makeASTFunction]

theorem distributeOr_none (f : AST → Option AST) (a b : AST) (ha : isAndFunc a = false)
    (hb : isAndFunc b = false) : distributeOr f [a, b] = some (.func "or" [a, b]) := by
  simp [distributeOr, lastAndIndex, ha, hb]

/-- One distribution step on processed operands: the call on the new "and" node
distributes in its two "or" children. -/
theorem traversePushOr_step (n : Nat) (a b c : AST) (ha : traversePushOr n a = some a)
    (hb : traversePushOr n b = some b) (hc : traversePushOr n c = some c) :
    traversePushOr (n + 2) (.func "and" [.func "or" [a, b], .func "or" [a, c]]) =
      match distributeOr (traversePushOr n) [a, b], distributeOr (traversePushOr n) [a, c] with
      | some r1, some r2 => some (.func "and" [r1, r2])
      | _, _ => none := by
  rw [traversePushOr_logic "and" (by tauto), traversePushOr_logic "or" (by tauto),
    traversePushOr_logic "or" (by tauto), ha, hb, hc]
  simp only [if_true]
  cases distributeOr (traversePushOr n) [a, b] <;>
    cases distributeOr (traversePushOr n) [a, c] <;> simp

theorem distributeOr_cnf : ∀ (k : Nat) (a b : AST), logicSize a + logicSize b ≤ k →
    IsCNF a → IsCNF b → ∀ n, 2 * k ≤ n →
      ∃ r, distributeOr (traversePushOr n) [a, b] = some r ∧ IsCNF r ∧
        (∀ v, evalAST v r = (evalAST v a || evalAST v b)) ∧
        logicSize r + 1 ≤ (logicSize a + 1) * (logicSize b + 1) := by
  intro k
  induction k with
  | zero =>
    intro a b hk
    have := logicSize_pos a
    omega
  | succ k ih =>
    intro a b hk ha hb n hn
    have hpa := logicSize_pos a
    have hpb := logicSize_pos b
    -- the step shared by the two cases in which one operand is an "and" node
    have step : ∀ (o p q : AST), IsCNF o → IsCNF p → IsCNF q →
        logicSize o + (1 + (logicSize p + logicSize q)) ≤ k + 1 →
        ∃ r, traversePushOr n (.func "and" [.func "or" [o, p], .func "or" [o, q]]) = some r ∧
          IsCNF r ∧ (∀ v, evalAST v r = (evalAST v o || (evalAST v p && evalAST v q))) ∧
          logicSize r + 1 ≤ (logicSize o + 1) * ((1 + (logicSize p + logicSize q)) + 1) := by
      intro o p q ho hp hq hsz
      have hpp := logicSize_pos p
      have hpq := logicSize_pos q
      obtain ⟨m, rfl⟩ : ∃ m, n = m + 2 := ⟨n - 2, by omega⟩
      obtain ⟨r1, e1, c1, v1, s1⟩ := ih o p (by omega) ho hp m (by omega)
      obtain ⟨r2, e2, c2, v2, s2⟩ := ih o q (by omega) ho hq m (by omega)
      rw [traversePushOr_step m o p q (traversePushOr_cnf o ho m (by omega))
        (traversePushOr_cnf p hp m (by omega)) (traversePushOr_cnf q hq m (by omega)), e1, e2]
      refine ⟨_, rfl, IsCNF.and r1 r2 c1 c2, fun v => ?_, ?_⟩
      · rw [evalAST_and]
        simp only [evalAll, v1 v, v2 v, Bool.and_true]
        cases evalAST v o <;> cases evalAST v p <;> cases evalAST v q <;> rfl
      · rw [logicSize_logic "and" (by tauto)]
        have e : (logicSize o + 1) * ((1 + (logicSize p + logicSize q)) + 1) =
            (logicSize o + 1) * (logicSize p + 1) + (logicSize o + 1) * (logicSize q + 1) := by
          ring
        omega
    cases hb with
    | and b1 b2 hb1 hb2 =>
      rw [distributeOr_right]
      rw [logicSize_logic "and" (by tauto)] at hk ⊢
      obtain ⟨r, e, c, hv, hs⟩ := step a b1 b2 ha hb1 hb2 hk
      refine ⟨r, e, c, fun v => ?_, hs⟩
      rw [hv v, evalAST_and]
      simp [evalAll]
    | clause _ hbc =>
      cases ha with
      | and a1 a2 ha1 ha2 =>
        rw [distributeOr_left _ _ _ _ (isAndFunc_clause b hbc)]
        rw [logicSize_logic "and" (by tauto)] at hk ⊢
        obtain ⟨r, e, c, hv, hs⟩ := step b a1 a2 (IsCNF.clause b hbc) ha1 ha2 (by omega)
        refine ⟨r, e, c, fun v => ?_, ?_⟩
        · rw [hv v, evalAST_and]
          simp only [evalAll, Bool.and_true]
          cases evalAST v b <;> cases evalAST v a1 <;> cases evalAST v a2 <;> rfl
        · rw [Nat.mul_comm]
          exact hs
      | clause _ hac =>
        rw [distributeOr_none _ _ _ (isAndFunc_clause a hac) (isAndFunc_clause b hbc)]
        refine ⟨_, rfl, IsCNF.clause _ (IsClause.or a b hac hbc), fun v => ?_, ?_⟩
        · rw [evalAST_or]
          simp [evalAny]
        · rw [logicSize_logic "or" (by tauto)]
          have : 1 ≤ logicSize a * logicSize b := Nat.mul_pos hpa hpb
          have e : (logicSize a + 1) * (logicSize b + 1) =
              logicSize a * logicSize b + logicSize a + logicSize b + 1 := by ring
          omega

theorem pushOrWeight_and (x y : AST) :
    pushOrWeight (.func "and" [x, y]) = pushOrWeight x + pushOrWeight y := by
  simp [pushOrWeight, pushOrWeightSum]

theorem pushOrWeight_or (x y : AST) :
    pushOrWeight (.func "or" [x, y]) = pushOrWeight x * pushOrWeight y := by
  simp [pushOrWeight, pushOrWeightProd]

theorem pushOrWeight_lit (t : AST) (h : IsLit t) : pushOrWeight t = 2 := by
  cases h with
  | atom _ ha =>
    cases t with
    | leaf id => simp [pushOrWeight]
    | func name args =>
      obtain ⟨h1, h2, _⟩ := ha
      simp [pushOrWeight, h1, h2]
  | not c _ => simp [pushOrWeight]

theorem pushOrWeight_ge_two (t : AST) (h : IsNNF t) : 2 ≤ pushOrWeight t := by
  induction h with
  | lit t hl => rw [pushOrWeight_lit t hl]
  | and x y _ _ ihx ihy => rw [pushOrWeight_and]; omega
  | or x y _ _ ihx ihy =>
    rw [pushOrWeight_or]
    calc 2 ≤ 2 * 2 := by omega
      _ ≤ pushOrWeight x * pushOrWeight y := Nat.mul_le_mul ihx ihy

/-- On a tree in negation normal form `traversePushOr` returns, whenever its depth
bound is at least `pushOrFuel`, an equivalent tree in CNF shape. -/
theorem traversePushOr_nnf (t : AST) (h : IsNNF t) :
    ∀ n, 2 * pushOrWeight t ≤ n →
      ∃ r, traversePushOr n t = some r ∧ IsCNF r ∧ (∀ v, evalAST v r = evalAST v t) ∧
        logicSize r + 1 ≤ pushOrWeight t := by
  induction h with
  | lit t hl =>
    intro n hn
    rw [pushOrWeight_lit t hl] at hn ⊢
    obtain ⟨m, rfl⟩ : ∃ m, n = m + 1 := ⟨n - 1, by omega⟩
    exact ⟨t, traversePushOr_lit t hl m, IsCNF.clause t (IsClause.lit t hl), fun _ => rfl,
      by rw [logicSize_lit t hl]⟩
  | and x y hx hy ihx ihy =>
    intro n hn
    rw [pushOrWeight_and] at hn ⊢
    have wx := pushOrWeight_ge_two x hx
    have wy := pushOrWeight_ge_two y hy
    obtain ⟨m, rfl⟩ : ∃ m, n = m + 1 := ⟨n - 1, by omega⟩
    obtain ⟨r1, e1, c1, v1, s1⟩ := ihx m (by omega)
    obtain ⟨r2, e2, c2, v2, s2⟩ := ihy m (by omega)
    rw [traversePushOr_logic "and" (by tauto), e1, e2]
    refine ⟨_, by simp, IsCNF.and r1 r2 c1 c2, fun v => ?_, ?_⟩
    · rw [evalAST_and, evalAST_and]
      simp [evalAll, v1 v, v2 v]
    · rw [logicSize_logic "and" (by tauto)]
      omega
  | or x y hx hy ihx ihy =>
    intro n hn
    rw [pushOrWeight_or] at hn ⊢
    have wx := pushOrWeight_ge_two x hx
    have wy := pushOrWeight_ge_two y hy
    have hxy : 2 * pushOrWeight y ≤ pushOrWeight x * pushOrWeight y :=
      Nat.mul_le_mul_right _ wx
    have hyx : pushOrWeight x * 2 ≤ pushOrWeight x * pushOrWeight y :=
      Nat.mul_le_mul_left _ wy
    obtain ⟨m, rfl⟩ : ∃ m, n = m + 1 := ⟨n - 1, by omega⟩
    obtain ⟨r1, e1, c1, v1, s1⟩ := ihx m (by omega)
    obtain ⟨r2, e2, c2, v2, s2⟩ := ihy m (by omega)
    obtain ⟨r, e, c, hv, hs⟩ := distributeOr_cnf (logicSize r1 + logicSize r2) r1 r2
      (le_refl _) c1 c2 m (by omega)
    rw [traversePushOr_logic "or" (by tauto), e1, e2]
    refine ⟨r, by simpa using e, c, fun v => ?_, ?_⟩
    · rw [hv v, evalAST_or]
      simp [evalAny, v1 v, v2 v]
    · exact le_trans hs (Nat.mul_le_mul s1 s2)


/-! ## The CNF Extractor -/

/-- The step `if (!group.empty()) and_group.insert(group)`. -/
def addGroup (and_group : AndGroup AST) (group : OrGroup AST) : AndGroup AST :=
  if group = ∅ then and_group else insert group and_group

theorem traverseCNF_func (name : String) (args : List AST) (ag : AndGroup AST)
    (og : OrGroup AST) :
    traverseCNF (.func name args) ag og =
      if name = "and" then (traverseCNFAnd args ag).map (fun r => (r, og))
      else if name = "or" then traverseCNFOr args ag og
      else if name = "not" then
        match args with
        | [c] => some (ag, insert ⟨true, c⟩ og)
        | _ => none
      else some (ag, insert ⟨false, .func name args⟩ og) := by
  rw [traverseCNF.eq_def]

theorem traverseCNF_atom (t : AST) (h : IsAtom t) (ag : AndGroup AST) (og : OrGroup AST) :
    traverseCNF t ag og = some (ag, insert ⟨false, t⟩ og) := by
  cases t with
  | leaf id => simp [traverseCNF]
  | func name args =>
    obtain ⟨h1, h2, h3⟩ := h
    simp [traverseCNF_func, h1, h2, h3]

theorem traverseCNF_not (c : AST) (ag : AndGroup AST) (og : OrGroup AST) :
    traverseCNF (.func "not" [c]) ag og = some (ag, insert ⟨true, c⟩ og) := by
  simp [traverseCNF_func]

theorem traverseCNF_or (x y : AST) (ag : AndGroup AST) (og : OrGroup AST) :
    traverseCNF (.func "or" [x, y]) ag og =
      match traverseCNF x ag og with
      | none => none
      | some (ag1, og1) => traverseCNF y ag1 og1 := by
  rw [traverseCNF_func, if_neg (by decide), if_pos rfl, traverseCNFOr]
  cases h1 : traverseCNF x ag og with
  | none => rfl
  | some r1 =>
    obtain ⟨ag1, og1⟩ := r1
    simp only [traverseCNFOr]
    cases h2 : traverseCNF y ag1 og1 with
    | none => rfl
    | some r2 => rfl

theorem traverseCNF_and (x y : AST) (ag : AndGroup AST) (og : OrGroup AST) :
    traverseCNF (.func "and" [x, y]) ag og =
      match traverseCNF x ag ∅ with
      | none => none
      | some (ag1, g1) =>
        match traverseCNF y (addGroup ag1 g1) ∅ with
        | none => none
        | some (ag2, g2) => some (addGroup ag2 g2, og) := by
  rw [traverseCNF_func, if_pos rfl, traverseCNFAnd]
  cases h1 : traverseCNF x ag ∅ with
  | none => rfl
  | some r1 =>
    obtain ⟨ag1, g1⟩ := r1
    simp only [traverseCNFAnd, addGroup]
    cases h2 : traverseCNF y (if g1 = ∅ then ag1 else insert g1 ag1) ∅ with
    | none => rfl
    | some r2 => rfl

theorem evalGroup_insert {α : Type} [LinearOrder α] (v : α → Bool) (atom : AtomicFormula α)
    (og : OrGroup α) : evalGroup v (insert atom og) = (evalAtom v atom || evalGroup v og) := by
  simp only [evalGroup, Finset.mem_insert, exists_eq_or_imp]
  rw [Bool.decide_or]
  simp

theorem evalGroup_empty {α : Type} [LinearOrder α] (v : α → Bool) :
    evalGroup v (∅ : OrGroup α) = false := by
  simp [evalGroup]

theorem evalCNF_insert {α : Type} [LinearOrder α] (v : α → Bool) (g : OrGroup α)
    (ag : AndGroup α) : evalCNF v (insert g ag) = (evalGroup v g && evalCNF v ag) := by
  simp only [evalCNF, Finset.mem_insert, forall_eq_or_imp]
  rw [Bool.decide_and]
  simp

theorem evalCNF_empty {α : Type} [LinearOrder α] (v : α → Bool) :
    evalCNF v (∅ : AndGroup α) = true := by
  simp [evalCNF]

theorem traverseCNF_lit (t : AST) (h : IsLit t) (ag : AndGroup AST) (og : OrGroup AST) :
    ∃ atom, traverseCNF t ag og = some (ag, insert atom og) ∧
      ∀ v, evalAtom v atom = evalAST v t := by
  cases h with
  | atom _ ha =>
    exact ⟨⟨false, t⟩, traverseCNF_atom t ha ag og, fun v => by
      rw [evalAST_atom v t ha]; simp [evalAtom]⟩
  | not c hc =>
    exact ⟨⟨true, c⟩, traverseCNF_not c ag og, fun v => by
      rw [evalAST_not, evalAST_atom v c hc]; simp [evalAtom]⟩

theorem traverseCNF_clause (t : AST) (h : IsClause t) :
    ∀ (ag : AndGroup AST) (og : OrGroup AST),
      ∃ og1, traverseCNF t ag og = some (ag, og1) ∧ og1 ≠ ∅ ∧
        ∀ v, evalGroup v og1 = (evalGroup v og || evalAST v t) := by
  induction h with
  | lit t hl =>
    intro ag og
    obtain ⟨atom, h1, h2⟩ := traverseCNF_lit t hl ag og
    refine ⟨_, h1, Finset.insert_ne_empty _ _, fun v => ?_⟩
    rw [evalGroup_insert, h2 v, Bool.or_comm]
  | or x y _ _ ihx ihy =>
    intro ag og
    obtain ⟨og1, h1, _, h3⟩ := ihx ag og
    obtain ⟨og2, g1, g2, g3⟩ := ihy ag og1
    refine ⟨og2, by rw [traverseCNF_or, h1]; exact g1, g2, fun v => ?_⟩
    rw [g3 v, h3 v, evalAST_or]
    simp [evalAny, Bool.or_assoc]

theorem evalCNF_addGroup (v : AST → Bool) (ag : AndGroup AST) (g : OrGroup AST)
    (hg : g ≠ ∅) : evalCNF v (addGroup ag g) = (evalCNF v ag && evalGroup v g) := by
  rw [addGroup, if_neg hg, evalCNF_insert, Bool.and_comm]

/-- On a tree in CNF shape `traverseCNF`, started with an empty group, yields groups
whose conjunction (once the last group is added) is the conjunction of the groups
it was given and of the tree; it inserts no empty group. -/
theorem traverseCNF_cnf (t : AST) (h : IsCNF t) :
    ∀ (ag : AndGroup AST),
      ∃ ag1 g1, traverseCNF t ag ∅ = some (ag1, g1) ∧
        (∀ v, evalCNF v (addGroup ag1 g1) = (evalCNF v ag && evalAST v t)) ∧
        ((∀ x ∈ ag, x ≠ ∅) → ∀ x ∈ ag1, x ≠ ∅) := by
  induction h with
  | clause t hc =>
    intro ag
    obtain ⟨og1, h1, h2, h3⟩ := traverseCNF_clause t hc ag ∅
    refine ⟨ag, og1, h1, fun v => ?_, fun h => h⟩
    rw [evalCNF_addGroup v ag og1 h2, h3 v, evalGroup_empty, Bool.false_or]
  | and x y _ _ ihx ihy =>
    intro ag
    obtain ⟨ag1, g1, h1, h2, h3⟩ := ihx ag
    obtain ⟨ag2, g2, e1, e2, e3⟩ := ihy (addGroup ag1 g1)
    have hne : (∀ x ∈ ag, x ≠ ∅) → ∀ x ∈ addGroup ag2 g2, x ≠ ∅ := by
      intro hag
      have k1 : ∀ x ∈ addGroup ag1 g1, x ≠ ∅ := by
        intro x hx
        unfold addGroup at hx
        split at hx
        · exact h3 hag x hx
        · rcases Finset.mem_insert.mp hx with hx | hx
          · rw [hx]; assumption
          · exact h3 hag x hx
      intro x hx
      unfold addGroup at hx
      split at hx
      · exact e3 k1 x hx
      · rcases Finset.mem_insert.mp hx with hx | hx
        · rw [hx]; assumption
        · exact e3 k1 x hx
    refine ⟨addGroup ag2 g2, ∅, by rw [traverseCNF_and, h1]; simp only; rw [e1], fun v => ?_, hne⟩
    have e : addGroup (addGroup ag2 g2) ∅ = addGroup ag2 g2 := by simp [addGroup]
    rw [e, e2 v, h2 v, evalAST_and]
    simp [evalAll, Bool.and_assoc]

theorem traverseCNFTop_eq (node : AST) (result : AndGroup AST) :
    traverseCNFTop node result =
      match traverseCNF node result ∅ with
      | none => none
      | some (result1, or_group) => some (addGroup result1 or_group) := by
  rfl


/-! ## The whole conversion -/

mutual
theorem hasMalformed_eq : ∀ t : AST, hasMalformed t = (hasBadLogic t || hasBadNot t)
  | .leaf _ => by simp [hasMalformed, hasBadLogic, hasBadNot]
  | .func name args => by
    have ih := hasMalformedList_eq args
    rw [hasMalformed, hasBadLogic, hasBadNot]
    by_cases hn : name = "and" ∨ name = "or"
    · simp only [if_pos hn, ih, Bool.or_assoc]
    · by_cases hnot : name = "not"
      · simp only [if_neg hn, if_pos hnot, ih]
        cases decide (args.length ≠ 1) <;> cases hasBadLogicList args <;>
          cases hasBadNotList args <;> rfl
      · simp [hn, hnot]
theorem hasMalformedList_eq : ∀ ts : List AST,
    hasMalformedList ts = (hasBadLogicList ts || hasBadNotList ts)
  | [] => by simp [hasMalformedList, hasBadLogicList, hasBadNotList]
  | c :: cs => by
    rw [hasMalformedList, hasBadLogicList, hasBadNotList, hasMalformed_eq c,
      hasMalformedList_eq cs]
    cases hasBadLogic c <;> cases hasBadNot c <;> cases hasBadLogicList cs <;>
      cases hasBadNotList cs <;> rfl
end

/-- What `toCNF` does: it throws exactly on the malformed expressions, and on every
other expression returns a CNF value that is equivalent to the expression and has
no empty clause. -/
theorem toCNF_spec (e : AST) :
    (hasMalformed e = true → toCNF e = none) ∧
    (hasMalformed e = false → ∃ cnf, toCNF e = some cnf ∧
      (∀ v, evalCNF v cnf = evalAST v e) ∧ ∀ g ∈ cnf, g ≠ ∅) := by
  rw [hasMalformed_eq]
  have hs := splitMultiLogic_spec e
  constructor
  · intro h
    by_cases hl : hasBadLogic e = true
    · simp [toCNF, hs.1 hl]
    · have hl2 : hasBadLogic e = false := by simpa using hl
      have hnot : hasBadNot e = true := by simpa [hl2] using h
      obtain ⟨t1, h1, h2, h3, _⟩ := hs.2 hl2
      have hp := (traversePushNot_spec t1 false h2).1 (by rw [h3]; exact hnot)
      simp [toCNF, h1, hp]
  · intro h
    rw [Bool.or_eq_false_iff] at h
    obtain ⟨t1, h1, h2, h3, h4⟩ := hs.2 h.1
    obtain ⟨t2, p1, p2, p3⟩ := (traversePushNot_spec t1 false h2).2 (by rw [h3]; exact h.2)
    obtain ⟨t3, q1, q2, q3, _⟩ := traversePushOr_nnf t2 p2 (pushOrFuel t2) (le_refl _)
    obtain ⟨ag1, g1, r1, r2, r3⟩ := traverseCNF_cnf t3 q2 ∅
    refine ⟨addGroup ag1 g1, by simp [toCNF, h1, p1, q1, traverseCNFTop_eq, r1],
      fun v => ?_, ?_⟩
    · rw [r2 v, q3 v, p3 v, h4 v, evalCNF_empty]
      simp
    · intro g hg
      have k := r3 (by simp)
      unfold addGroup at hg
      split at hg
      · exact k g hg
      · rcases Finset.mem_insert.mp hg with hg | hg
        · rw [hg]; assumption
        · exact k g hg


/-! ## The conversion of conjunctions and of `OR(AND(a, b), c)` -/

theorem splitMultiLogic_atom (t : AST) (h : IsAtom t) : splitMultiLogic t = some t := by
  cases t with
  | leaf id => rfl
  | func name args =>
    obtain ⟨h1, h2, h3⟩ := h
    simp [splitMultiLogic_func, h1, h2, h3]

theorem splitMultiLogicList_atoms :
    ∀ ts : List AST, (∀ a ∈ ts, IsAtom a) → splitMultiLogicList ts = some ts := by
  intro ts
  induction ts with
  | nil => intro _; rfl
  | cons c cs ih =>
    intro h
    rw [splitMultiLogicList, splitMultiLogic_atom c (h c (List.mem_cons_self _ _)),
      ih (fun a ha => h a (List.mem_cons_of_mem _ ha))]
    rfl

theorem traversePushNot_atom (t : AST) (h : IsAtom t) : traversePushNot t false = some t := by
  cases t with
  | leaf id => rfl
  | func name args =>
    obtain ⟨h1, h2, h3⟩ := h
    simp [traversePushNot_func, h1, h2, h3]

theorem traversePushNot_chain (name : String) (hn : name = "and" ∨ name = "or") :
    ∀ (cs : List AST) (c0 : AST), traversePushNot c0 false = some c0 →
      (∀ a ∈ cs, IsAtom a) →
      traversePushNot (cs.foldl (fun res c => makeASTFunction name [res, c]) c0) false =
        some (cs.foldl (fun res c => makeASTFunction name [res, c]) c0) := by
  intro cs
  induction cs with
  | nil => intro c0 h0 _; exact h0
  | cons c cs ih =>
    intro c0 h0 h
    simp only [List.foldl_cons]
    apply ih _ _ (fun a ha => h a (List.mem_cons_of_mem _ ha))
    rw [makeASTFunction, traversePushNot_logic name hn, h0,
      traversePushNot_atom c (h c (List.mem_cons_self _ _))]
    simp

theorem isCNF_atom (t : AST) (h : IsAtom t) : IsCNF t :=
  IsCNF.clause t (IsClause.lit t (IsLit.atom t h))

theorem isCNF_chain :
    ∀ (cs : List AST) (c0 : AST), IsCNF c0 → (∀ a ∈ cs, IsAtom a) →
      IsCNF (cs.foldl (fun res c => makeASTFunction "and" [res, c]) c0) := by
  intro cs
  induction cs with
  | nil => intro c0 h0 _; exact h0
  | cons c cs ih =>
    intro c0 h0 h
    simp only [List.foldl_cons]
    exact ih _ (IsCNF.and c0 c h0 (isCNF_atom c (h c (List.mem_cons_self _ _))))
      (fun a ha => h a (List.mem_cons_of_mem _ ha))

theorem logicSize_lt_weight_clause (t : AST) (h : IsClause t) :
    logicSize t + 1 ≤ pushOrWeight t := by
  induction h with
  | lit t hl => rw [logicSize_lit t hl, pushOrWeight_lit t hl]
  | or x y _ _ ihx ihy =>
    rw [logicSize_logic "or" (by tauto), pushOrWeight_or]
    have hx := logicSize_pos x
    have hy := logicSize_pos y
    have h1 : (logicSize x + 1) * (logicSize y + 1) ≤ pushOrWeight x * pushOrWeight y :=
      Nat.mul_le_mul ihx ihy
    have h2 : (logicSize x + 1) * (logicSize y + 1) =
        logicSize x * logicSize y + logicSize x + logicSize y + 1 := by ring
    have h3 : 1 ≤ logicSize x * logicSize y := Nat.mul_pos hx hy
    omega

theorem logicSize_lt_weight (t : AST) (h : IsCNF t) : logicSize t + 1 ≤ pushOrWeight t := by
  induction h with
  | clause t hc => exact logicSize_lt_weight_clause t hc
  | and x y _ _ ihx ihy =>
    rw [logicSize_logic "and" (by tauto), pushOrWeight_and]
    omega

/-- A tree already in CNF shape is returned as it is by the distributor. -/
theorem traversePushOr_fuel_cnf (t : AST) (h : IsCNF t) :
    traversePushOr (pushOrFuel t) t = some t := by
  apply traversePushOr_cnf t h
  have := logicSize_lt_weight t h
  unfold pushOrFuel
  omega

theorem traverseCNFTop_atom (t : AST) (h : IsAtom t) (ag : AndGroup AST) :
    traverseCNFTop t ag = some (insert {⟨false, t⟩} ag) := by
  rw [traverseCNFTop_eq, traverseCNF_atom t h]
  simp [addGroup]

theorem traverseCNFTop_and (x y : AST) (ag : AndGroup AST) :
    traverseCNFTop (.func "and" [x, y]) ag =
      match traverseCNFTop x ag with
      | none => none
      | some r => traverseCNFTop y r := by
  rw [traverseCNFTop_eq, traverseCNFTop_eq, traverseCNF_and]
  cases h1 : traverseCNF x ag ∅ with
  | none => rfl
  | some r1 =>
    obtain ⟨ag1, g1⟩ := r1
    simp only
    rw [traverseCNFTop_eq]
    cases h2 : traverseCNF y (addGroup ag1 g1) ∅ with
    | none => rfl
    | some r2 =>
      obtain ⟨ag2, g2⟩ := r2
      simp [addGroup]

theorem traverseCNFTop_chain :
    ∀ (cs : List AST) (c0 : AST) (ag r : AndGroup AST), traverseCNFTop c0 ag = some r →
      (∀ a ∈ cs, IsAtom a) →
      traverseCNFTop (cs.foldl (fun res c => makeASTFunction "and" [res, c]) c0) ag =
        some ((cs.map (fun a => ({⟨false, a⟩} : OrGroup AST))).toFinset ∪ r) := by
  intro cs
  induction cs with
  | nil => intro c0 ag r h0 _; simpa using h0
  | cons c cs ih =>
    intro c0 ag r h0 h
    simp only [List.foldl_cons]
    rw [ih (makeASTFunction "and" [c0, c]) ag (insert {⟨false, c⟩} r) ?_
      (fun a ha => h a (List.mem_cons_of_mem _ ha))]
    · congr 1
      ext g
      simp only [List.map_cons, List.toFinset_cons, Finset.mem_union, Finset.mem_insert]
      tauto
    · rw [makeASTFunction, traverseCNFTop_and, h0]
      exact traverseCNFTop_atom c (h c (List.mem_cons_self _ _)) r

/-- The conversion of an n-ary conjunction of atoms. -/
theorem toCNF_and_atoms (atoms : List AST) (hlen : 2 ≤ atoms.length)
    (hat : ∀ a ∈ atoms, IsAtom a) :
    toCNF (.func "and" atoms) =
      some (atoms.map (fun a => ({⟨false, a⟩} : OrGroup AST))).toFinset := by
  match atoms, hlen, hat with
  | c0 :: cs, hlen, hat =>
    have h0 : IsAtom c0 := hat c0 (List.mem_cons_self _ _)
    have hcs : ∀ a ∈ cs, IsAtom a := fun a ha => hat a (List.mem_cons_of_mem _ ha)
    have e1 := splitMultiLogic_logic "and" (by tauto) (c0 :: cs) (by omega) c0 cs
      (splitMultiLogicList_atoms _ hat) rfl
    have e2 := traversePushNot_chain "and" (by tauto) cs c0 (traversePushNot_atom c0 h0) hcs
    have e3 := traversePushOr_fuel_cnf _ (isCNF_chain cs c0 (isCNF_atom c0 h0) hcs)
    have e4 := traverseCNFTop_chain cs c0 ∅ _ (traverseCNFTop_atom c0 h0 ∅) hcs
    simp only [toCNF, e1, e2, e3, e4]
    congr 1
    ext g
    simp only [List.map_cons, List.toFinset_cons, Finset.mem_union, Finset.mem_insert,
      Finset.not_mem_empty, or_false]
    tauto

/-- The conversion of `OR(AND(a, b), c)`. -/
theorem toCNF_or_and (a b c : AST) (ha : IsAtom a) (hb : IsAtom b) (hc : IsAtom c) :
    toCNF (.func "or" [.func "and" [a, b], c]) =
      some {{⟨false, a⟩, ⟨false, c⟩}, {⟨false, b⟩, ⟨false, c⟩}} := by
  have s1 : splitMultiLogic (.func "and" [a, b]) = some (.func "and" [a, b]) :=
    splitMultiLogic_logic "and" (by tauto) [a, b] (by simp) a [b]
      (splitMultiLogicList_atoms _ (by simp [ha, hb])) rfl
  have s2 : splitMultiLogic (.func "or" [.func "and" [a, b], c]) =
      some (.func "or" [.func "and" [a, b], c]) :=
    splitMultiLogic_logic "or" (by tauto) [.func "and" [a, b], c] (by simp)
      (.func "and" [a, b]) [c]
      (by simp [splitMultiLogicList, s1, splitMultiLogic_atom c hc]) rfl
  have p1 : traversePushNot (.func "or" [.func "and" [a, b], c]) false =
      some (.func "or" [.func "and" [a, b], c]) := by
    rw [traversePushNot_logic "or" (by tauto), traversePushNot_logic "and" (by tauto),
      traversePushNot_atom a ha, traversePushNot_atom b hb, traversePushNot_atom c hc]
    simp
  have cab : IsCNF (.func "and" [a, b]) := IsCNF.and a b (isCNF_atom a ha) (isCNF_atom b hb)
  have lit : ∀ t, IsAtom t → IsClause t := fun t h => IsClause.lit t (IsLit.atom t h)
  have cres : IsCNF (.func "and" [.func "or" [c, a], .func "or" [c, b]]) :=
    IsCNF.and _ _ (IsCNF.clause _ (IsClause.or c a (lit c hc) (lit a ha)))
      (IsCNF.clause _ (IsClause.or c b (lit c hc) (lit b hb)))
  have wa : pushOrWeight a = 2 := pushOrWeight_lit a (IsLit.atom a ha)
  have wb : pushOrWeight b = 2 := pushOrWeight_lit b (IsLit.atom b hb)
  have wc : pushOrWeight c = 2 := pushOrWeight_lit c (IsLit.atom c hc)
  have sa : logicSize a = 1 := logicSize_lit a (IsLit.atom a ha)
  have sb : logicSize b = 1 := logicSize_lit b (IsLit.atom b hb)
  have sc : logicSize c = 1 := logicSize_lit c (IsLit.atom c hc)
  have fuel : pushOrFuel (.func "or" [.func "and" [a, b], c]) = 15 + 1 := by
    rw [pushOrFuel, pushOrWeight_or, pushOrWeight_and, wa, wb, wc]
  have o1 : traversePushOr (15 + 1) (.func "or" [.func "and" [a, b], c]) =
      some (.func "and" [.func "or" [c, a], .func "or" [c, b]]) := by
    rw [traversePushOr_logic "or" (by tauto),
      traversePushOr_cnf _ cab 15 (by rw [logicSize_logic "and" (by tauto), sa, sb]; omega),
      traversePushOr_cnf c (isCNF_atom c hc) 15 (by omega)]
    simp only [if_true]
    rw [distributeOr_left _ _ _ _ (isAndFunc_lit c (IsLit.atom c hc))]
    apply traversePushOr_cnf _ cres
    rw [logicSize_logic "and" (by tauto), logicSize_logic "or" (by tauto),
      logicSize_logic "or" (by tauto), sa, sb, sc]
    omega
  have t1 : traverseCNFTop (.func "and" [.func "or" [c, a], .func "or" [c, b]]) ∅ =
      some {{⟨false, a⟩, ⟨false, c⟩}, {⟨false, b⟩, ⟨false, c⟩}} := by
    simp only [traverseCNFTop_eq, traverseCNF_and, traverseCNF_or, traverseCNF_atom c hc,
      traverseCNF_atom a ha, traverseCNF_atom b hb, addGroup, Finset.insert_ne_empty,
      if_false, if_true]
    congr 1
    ext g
    simp only [Finset.mem_insert, Finset.mem_singleton, Finset.not_mem_empty, or_false,
      insert_emptyc_eq, Finset.pair_comm]
  simp only [toCNF, s2, p1, fuel, o1, t1]


/-! ## The Clause Reducer -/

theorem reduceOnceScan_mono {α : Type} [LinearOrder α] (s t : AndGroup α) (hts : t ⊆ s) :
    ∀ (atoms : List (AtomicFormula α)) (copy : OrGroup α),
      reduceOnceScan s atoms copy = none → reduceOnceScan t atoms copy = none := by
  intro atoms
  induction atoms with
  | nil => intro copy _; rfl
  | cons atom rest ih =>
    intro copy h
    rw [reduceOnceScan] at h ⊢
    split at h
    · exact absurd h (by simp)
    · rename_i hmem
      rw [if_neg (fun hc => hmem (hts hc))]
      exact ih _ h

theorem reduceOnceGroup_eq_iff {α : Type} [LinearOrder α] (groups : AndGroup α)
    (group : OrGroup α) :
    reduceOnceGroup groups group = group ↔
      reduceOnceScan groups (OrGroup.elems group) group = none := by
  unfold reduceOnceGroup
  cases h : reduceOnceScan groups (OrGroup.elems group) group with
  | none => simp
  | some c =>
    have hc := reduceOnceScan_ssubset groups group _ group c (Finset.Subset.refl _)
      (fun x hx => (OrGroup.mem_elems group x).mp hx) h
    simp only [reduceCtorEq, iff_false]
    exact fun e => hc.2 (by rw [e])

theorem reduceOnce_fixed_iff {α : Type} [LinearOrder α] (groups : AndGroup α) :
    groups = reduceOnce groups ↔ ∀ g ∈ groups, reduceOnceGroup groups g = g := by
  constructor
  · intro h g hg
    by_contra hne
    have hlt : AndGroup.weight (reduceOnce groups) < AndGroup.weight groups := by
      unfold AndGroup.weight reduceOnce
      refine lt_of_le_of_lt (sum_image_le_sum (reduceOnceGroup groups) Finset.card groups) ?_
      apply Finset.sum_lt_sum
      · intro x _
        exact Finset.card_le_card (reduceOnceGroup_subset groups x)
      · refine ⟨g, hg, Finset.card_lt_card ?_⟩
        rcases reduceOnceGroup_eq_or_ssubset groups g with h1 | h1
        · exact absurd h1 hne
        · exact h1
    rw [← h] at hlt
    exact lt_irrefl _ hlt
  · intro h
    unfold reduceOnce
    conv_lhs => rw [← @Finset.image_id _ groups _]
    exact Finset.image_congr (fun g hg => (h g hg).symm)

theorem isSubset_iff {α : Type} [LinearOrder α] (left right : OrGroup α) :
    isSubset left right = true ↔ left ⊆ right := by
  unfold isSubset
  split
  · rename_i h
    simp only [Bool.false_eq_true, false_iff]
    intro hsub
    have := Finset.card_le_card hsub
    omega
  · simp [Finset.subset_iff]

theorem mem_filterSubsets {α : Type} [LinearOrder α] (groups : AndGroup α) (g : OrGroup α) :
    g ∈ filterSubsets groups ↔ g ∈ groups ∧ ∀ o ∈ groups, o ⊆ g → o = g := by
  unfold filterSubsets
  rw [Finset.mem_filter]
  simp only [isSubset_iff, not_exists, not_and, ne_eq, not_not]
  constructor
  · rintro ⟨h1, h2⟩
    exact ⟨h1, fun o ho hs => (h2 o ho hs).symm⟩
  · rintro ⟨h1, h2⟩
    exact ⟨h1, fun o ho hs => (h2 o ho hs).symm⟩

theorem filterSubsets_subset {α : Type} [LinearOrder α] (groups : AndGroup α) :
    filterSubsets groups ⊆ groups :=
  fun g hg => ((mem_filterSubsets groups g).mp hg).1

theorem filterSubsets_idem {α : Type} [LinearOrder α] (groups : AndGroup α) :
    filterSubsets (filterSubsets groups) = filterSubsets groups := by
  ext g
  rw [mem_filterSubsets]
  constructor
  · exact fun h => h.1
  · intro h
    refine ⟨h, fun o ho hs => ?_⟩
    exact ((mem_filterSubsets groups g).mp h).2 o (filterSubsets_subset groups ho) hs

theorem reduceOnce_filterSubsets {α : Type} [LinearOrder α] (groups : AndGroup α)
    (h : groups = reduceOnce groups) :
    filterSubsets groups = reduceOnce (filterSubsets groups) := by
  rw [reduceOnce_fixed_iff] at h ⊢
  intro g hg
  have hg2 := filterSubsets_subset groups hg
  rw [reduceOnceGroup_eq_iff]
  exact reduceOnceScan_mono groups _ (filterSubsets_subset groups) _ _
    ((reduceOnceGroup_eq_iff groups g).mp (h g hg2))

/-- The loop of `reduce` leaves after finitely many passes: the value returned is
`filterSubsets` of the first iterate of `reduceOnce` that is a fixed point. -/
theorem reduce_eq_filterSubsets {α : Type} [LinearOrder α] :
    ∀ (w : Nat) (v : CNFQuery α), AndGroup.weight v ≤ w →
      ∃ n, n ≤ w ∧ (∀ m < n, reduceOnce^[m] v ≠ reduceOnce (reduceOnce^[m] v)) ∧
        reduceOnce^[n] v = reduceOnce (reduceOnce^[n] v) ∧
        reduce v = filterSubsets (reduceOnce^[n] v) := by
  intro w
  induction w with
  | zero =>
    intro v hv
    have hfix : v = reduceOnce v := by
      by_contra hne
      have := reduceOnce_weight_lt v hne
      omega
    exact ⟨0, le_refl _, fun m hm => absurd hm (Nat.not_lt_zero m), hfix,
      by rw [reduce_unfold, if_pos hfix]; rfl⟩
  | succ w ih =>
    intro v hv
    by_cases hfix : v = reduceOnce v
    · exact ⟨0, Nat.zero_le _, fun m hm => absurd hm (Nat.not_lt_zero m), hfix,
        by rw [reduce_unfold, if_pos hfix]; rfl⟩
    · have hlt := reduceOnce_weight_lt v hfix
      obtain ⟨n, h1, hmin, h2, h3⟩ := ih (reduceOnce v) (by omega)
      refine ⟨n + 1, by omega, fun m hm => ?_, ?_, ?_⟩
      · cases m with
        | zero => exact hfix
        | succ m =>
          rw [Function.iterate_succ_apply]
          exact hmin m (by omega)
      · rw [Function.iterate_succ_apply]
        exact h2
      · rw [reduce_unfold, if_neg hfix, Function.iterate_succ_apply]
        exact h3

theorem card_iterate_reduceOnce {α : Type} [LinearOrder α] (v : CNFQuery α) :
    ∀ n, (reduceOnce^[n] v).card ≤ v.card := by
  intro n
  induction n with
  | zero => rfl
  | succ n ih =>
    rw [Function.iterate_succ_apply']
    exact le_trans Finset.card_image_le ih


theorem reduceOnceScan_positive {α : Type} [LinearOrder α] (groups : AndGroup α)
    (hpos : ∀ g ∈ groups, ∀ l ∈ g, l.negative = false) :
    ∀ (atoms : List (AtomicFormula α)) (copy : OrGroup α),
      (∀ l ∈ atoms, l.negative = false) → reduceOnceScan groups atoms copy = none := by
  intro atoms
  induction atoms with
  | nil => intro copy _; rfl
  | cons atom rest ih =>
    intro copy h
    rw [reduceOnceScan, if_neg]
    · exact ih _ (fun l hl => h l (List.mem_cons_of_mem _ hl))
    · intro hmem
      have h1 := hpos _ hmem atom.negated (Finset.mem_insert_self _ _)
      have h2 := h atom (List.mem_cons_self _ _)
      simp [AtomicFormula.negated, h2] at h1

/-- A CNF value without negated literals is a fixed point of `reduceOnce`. -/
theorem reduceOnce_positive {α : Type} [LinearOrder α] (groups : AndGroup α)
    (hpos : ∀ g ∈ groups, ∀ l ∈ g, l.negative = false) : groups = reduceOnce groups := by
  rw [reduceOnce_fixed_iff]
  intro g hg
  rw [reduceOnceGroup_eq_iff]
  exact reduceOnceScan_positive groups hpos _ _
    (fun l hl => hpos g hg l ((OrGroup.mem_elems g l).mp hl))

/-- What `reduce` returns: the minimal clauses of a fixed point of `reduceOnce` that
has no more clauses than the value given. -/
theorem reduce_spec {α : Type} [LinearOrder α] (v : CNFQuery α) :
    ∃ s : AndGroup α, s = reduceOnce s ∧ reduce v = filterSubsets s ∧ s.card ≤ v.card := by
  obtain ⟨n, _, _, h2, h3⟩ := reduce_eq_filterSubsets (AndGroup.weight v) v (le_refl _)
  exact ⟨_, h2, h3, card_iterate_reduceOnce v n⟩

/-! ## Where `reduce` keeps the truth value -/

/-- No clause holds both a literal and its complement. -/
def NoComplementary {α : Type} [LinearOrder α] (cnf : CNFQuery α) : Prop :=
  ∀ g ∈ cnf, ∀ l ∈ g, l.negated ∉ g

theorem evalCNF_iff {α : Type} [LinearOrder α] (v : α → Bool) (cnf : CNFQuery α) :
    evalCNF v cnf = true ↔ ∀ g ∈ cnf, evalGroup v g = true := by
  simp [evalCNF]

theorem evalGroup_iff {α : Type} [LinearOrder α] (v : α → Bool) (g : OrGroup α) :
    evalGroup v g = true ↔ ∃ l ∈ g, evalAtom v l = true := by
  simp [evalGroup]

theorem evalGroup_mono {α : Type} [LinearOrder α] (v : α → Bool) (g h : OrGroup α)
    (hsub : g ⊆ h) (hg : evalGroup v g = true) : evalGroup v h = true := by
  rw [evalGroup_iff] at hg ⊢
  obtain ⟨l, hl, hv⟩ := hg
  exact ⟨l, hsub hl, hv⟩

theorem evalAtom_negated {α : Type} (v : α → Bool) (l : AtomicFormula α) :
    evalAtom v l.negated = !evalAtom v l := by
  unfold evalAtom AtomicFormula.negated
  cases v l.ast <;> cases l.negative <;> rfl

/-- On a clause without complementary literals the working copy is restored after
every literal, so the inner loop of `reduceOnce` yields the clause less a literal
whose flip gives a clause of the CNF value. -/
theorem reduceOnceScan_clean {α : Type} [LinearOrder α] (groups : AndGroup α)
    (g : OrGroup α) (hg : ∀ l ∈ g, l.negated ∉ g) :
    ∀ (atoms : List (AtomicFormula α)) (c : OrGroup α), (∀ x ∈ atoms, x ∈ g) →
      reduceOnceScan groups atoms g = some c →
      ∃ l ∈ g, insert l.negated (g.erase l) ∈ groups ∧ c = g.erase l := by
  intro atoms
  induction atoms with
  | nil => intro c _ h; simp [reduceOnceScan] at h
  | cons atom rest ih =>
    intro c hatoms h
    have hatom : atom ∈ g := hatoms atom (List.mem_cons_self _ _)
    have hneg : atom.negated ∉ g.erase atom := fun hc => hg atom hatom (Finset.mem_of_mem_erase hc)
    have e1 : (insert atom.negated (g.erase atom)).erase atom.negated = g.erase atom :=
      Finset.erase_insert hneg
    rw [reduceOnceScan, e1] at h
    split at h
    · rename_i hmem
      injection h with h
      exact ⟨atom, hatom, hmem, h.symm⟩
    · rw [Finset.insert_erase hatom] at h
      exact ih c (fun x hx => hatoms x (List.mem_cons_of_mem _ hx)) h

theorem evalCNF_reduceOnce {α : Type} [LinearOrder α] (v : α → Bool) (cnf : CNFQuery α)
    (h : NoComplementary cnf) : evalCNF v (reduceOnce cnf) = evalCNF v cnf := by
  rw [Bool.eq_iff_iff, evalCNF_iff, evalCNF_iff]
  constructor
  · intro hr g hg
    exact evalGroup_mono v _ g (reduceOnceGroup_subset cnf g)
      (hr _ (Finset.mem_image_of_mem _ hg))
  · intro hc g1 hg1
    obtain ⟨g, hg, rfl⟩ := Finset.mem_image.mp hg1
    unfold reduceOnceGroup
    cases hs : reduceOnceScan cnf (OrGroup.elems g) g with
    | none => exact hc g hg
    | some c =>
      obtain ⟨l, hl, hmem, rfl⟩ := reduceOnceScan_clean cnf g (h g hg) _ c
        (fun x hx => (OrGroup.mem_elems g x).mp hx) hs
      simp only
      have h1 := hc g hg
      have h2 := hc _ hmem
      rw [evalGroup_iff] at h1 h2 ⊢
      cases hv : evalAtom v l with
      | true =>
        obtain ⟨m, hm, hmv⟩ := h2
        rcases Finset.mem_insert.mp hm with hm | hm
        · rw [hm, evalAtom_negated, hv] at hmv
          exact absurd hmv (by simp)
        · exact ⟨m, hm, hmv⟩
      | false =>
        obtain ⟨m, hm, hmv⟩ := h1
        refine ⟨m, Finset.mem_erase.mpr ⟨fun e => ?_, hm⟩, hmv⟩
        rw [e, hv] at hmv
        exact absurd hmv (by simp)

theorem noComplementary_reduceOnce {α : Type} [LinearOrder α] (cnf : CNFQuery α)
    (h : NoComplementary cnf) : NoComplementary (reduceOnce cnf) := by
  intro g1 hg1 l hl hn
  obtain ⟨g, hg, rfl⟩ := Finset.mem_image.mp hg1
  exact h g hg l (reduceOnceGroup_subset cnf g hl) (reduceOnceGroup_subset cnf g hn)

theorem exists_minimal_clause {α : Type} [LinearOrder α] (groups : AndGroup α) :
    ∀ (n : Nat) (g : OrGroup α), g.card ≤ n → g ∈ groups →
      ∃ o ∈ filterSubsets groups, o ⊆ g := by
  intro n
  induction n with
  | zero =>
    intro g hn hg
    refine ⟨g, (mem_filterSubsets groups g).mpr ⟨hg, fun o _ hsub => ?_⟩, Finset.Subset.refl _⟩
    have hg0 : g = ∅ := Finset.card_eq_zero.mp (by omega)
    rw [hg0] at hsub ⊢
    exact Finset.subset_empty.mp hsub
  | succ n ih =>
    intro g hn hg
    by_cases hmin : ∀ o ∈ groups, o ⊆ g → o = g
    · exact ⟨g, (mem_filterSubsets groups g).mpr ⟨hg, hmin⟩, Finset.Subset.refl _⟩
    · push_neg at hmin
      obtain ⟨o, ho, hsub, hne⟩ := hmin
      have hlt : o.card < g.card := Finset.card_lt_card ⟨hsub, fun h2 => hne (Finset.Subset.antisymm hsub h2)⟩
      obtain ⟨m, hm, hms⟩ := ih o (by omega) ho
      exact ⟨m, hm, hms.trans hsub⟩

theorem evalCNF_filterSubsets {α : Type} [LinearOrder α] (v : α → Bool)
    (groups : AndGroup α) : evalCNF v (filterSubsets groups) = evalCNF v groups := by
  rw [Bool.eq_iff_iff, evalCNF_iff, evalCNF_iff]
  constructor
  · intro hf g hg
    obtain ⟨o, ho, hsub⟩ := exists_minimal_clause groups g.card g (le_refl _) hg
    exact evalGroup_mono v o g hsub (hf o ho)
  · intro hc g hg
    exact hc g (filterSubsets_subset groups hg)

theorem evalCNF_iterate_reduceOnce {α : Type} [LinearOrder α] (v : α → Bool) :
    ∀ (n : Nat) (cnf : CNFQuery α), NoComplementary cnf →
      evalCNF v (reduceOnce^[n] cnf) = evalCNF v cnf := by
  intro n
  induction n with
  | zero => intro cnf _; rfl
  | succ n ih =>
    intro cnf h
    rw [Function.iterate_succ_apply, ih _ (noComplementary_reduceOnce cnf h),
      evalCNF_reduceOnce v cnf h]

/-- On a CNF value in which no clause holds both a literal and its complement,
`reduce` keeps the truth value under every valuation. -/
theorem evalCNF_reduce {α : Type} [LinearOrder α] (v : α → Bool) (cnf : CNFQuery α)
    (h : NoComplementary cnf) : evalCNF v (reduce cnf) = evalCNF v cnf := by
  obtain ⟨n, _, _, _, h3⟩ := reduce_eq_filterSubsets (AndGroup.weight cnf) cnf (le_refl _)
  rw [h3, evalCNF_filterSubsets, evalCNF_iterate_reduceOnce v n cnf h]

/-! ## The polarity normalizer -/

theorem transformAtoms_nonempty {α : Type} [LinearOrder α] (cnf : CNFQuery α)
    (f : AtomicFormula α → AtomicFormula α) (h : ∀ g ∈ cnf, g ≠ ∅) :
    ∀ g ∈ transformAtoms cnf f, g ≠ ∅ := by
  intro g hg
  unfold transformAtoms at hg
  obtain ⟨g0, h0, rfl⟩ := Finset.mem_image.mp hg
  have := h g0 h0
  rw [← Finset.nonempty_iff_ne_empty] at this ⊢
  exact this.image f

/-- The CNF values obtained from `start` by `pullNotOutFunctions` and
`pushNotInFuntions`, applied any number of times in any order. -/
inductive PolarityReachable (start : CNFQuery AST) : CNFQuery AST → Prop
  | start : PolarityReachable start start
  | pull (cnf : CNFQuery AST) :
    PolarityReachable start cnf → PolarityReachable start (pullNotOutFunctions cnf)
  | push (cnf : CNFQuery AST) :
    PolarityReachable start cnf → PolarityReachable start (pushNotInFuntions cnf)

/-! ## The two directions of the polarity normalizer -/

theorem lookup_mem : ∀ (table : List (String × String)) (k w : String),
    table.lookup k = some w → (k, w) ∈ table := by
  intro table
  induction table with
  | nil => intro k w h; simp [List.lookup] at h
  | cons p rest ih =>
    intro k w h
    obtain ⟨a, b⟩ := p
    rw [List.lookup] at h
    split at h
    · rename_i hk
      injection h with h
      rw [beq_iff_eq] at hk
      rw [hk, h]
      exact List.mem_cons_self _ _
    · exact List.mem_cons_of_mem _ (ih k w h)

theorem pushPullNotInAtom_func (n : Bool) (name : String) (args : List AST)
    (table : List (String × String)) :
    pushPullNotInAtom ⟨n, .func name args⟩ table =
      match table.lookup name with
      | some inverse => ⟨!n, .func inverse args⟩
      | none => ⟨n, .func name args⟩ := by
  rfl

/-- A valuation under which each relation of the table of `pullNotOut` and its
paired relation, applied to the same arguments, take opposite truth values. -/
def PairedOpposite (v : AST → Bool) : Prop :=
  ∀ p ∈ pullNotOutRelations, ∀ args : List AST, v (.func p.1 args) = !v (.func p.2 args)

theorem pushNotInRelations_paired :
    ∀ p ∈ pushNotInRelations, p ∈ pullNotOutRelations ∨ (p.2, p.1) ∈ pullNotOutRelations := by
  decide

theorem evalAtom_pushPull (v : AST → Bool) (table : List (String × String))
    (htable : ∀ p ∈ table, ∀ args : List AST, v (.func p.1 args) = !v (.func p.2 args))
    (l : AtomicFormula AST) : evalAtom v (pushPullNotInAtom l table) = evalAtom v l := by
  obtain ⟨n, p⟩ := l
  cases p with
  | leaf id => rfl
  | func name args =>
    rw [pushPullNotInAtom_func]
    cases h : table.lookup name with
    | none => rfl
    | some inverse =>
      have h1 := htable _ (lookup_mem table name inverse h) args
      simp only [evalAtom] at h1 ⊢
      rw [h1]
      cases v (.func inverse args) <;> cases n <;> rfl

theorem evalAtom_pullNotOut (v : AST → Bool) (hv : PairedOpposite v) (l : AtomicFormula AST) :
    evalAtom v (pullNotOut l) = evalAtom v l :=
  evalAtom_pushPull v pullNotOutRelations hv l

theorem evalAtom_pushNotIn (v : AST → Bool) (hv : PairedOpposite v) (l : AtomicFormula AST) :
    evalAtom v (pushNotIn l) = evalAtom v l := by
  unfold pushNotIn
  split
  · rfl
  · apply evalAtom_pushPull
    intro p hp args
    rcases pushNotInRelations_paired p hp with h | h
    · exact hv p h args
    · have := hv _ h args
      simp only at this
      rw [this, Bool.not_not]

theorem evalCNF_transformAtoms {α : Type} [LinearOrder α] (v : α → Bool) (cnf : CNFQuery α)
    (f : AtomicFormula α → AtomicFormula α) (hf : ∀ l, evalAtom v (f l) = evalAtom v l) :
    evalCNF v (transformAtoms cnf f) = evalCNF v cnf := by
  have hg : ∀ g : OrGroup α, evalGroup v (g.image f) = evalGroup v g := by
    intro g
    rw [Bool.eq_iff_iff, evalGroup_iff, evalGroup_iff]
    constructor
    · rintro ⟨l, hl, hv⟩
      obtain ⟨l0, h0, rfl⟩ := Finset.mem_image.mp hl
      exact ⟨l0, h0, by rw [← hf l0]; exact hv⟩
    · rintro ⟨l, hl, hv⟩
      exact ⟨f l, Finset.mem_image_of_mem f hl, by rw [hf l]; exact hv⟩
  rw [Bool.eq_iff_iff, evalCNF_iff, evalCNF_iff]
  unfold transformAtoms
  constructor
  · intro h g hgm
    rw [← hg g]
    exact h _ (Finset.mem_image_of_mem _ hgm)
  · intro h g hgm
    obtain ⟨g0, h0, rfl⟩ := Finset.mem_image.mp hgm
    rw [hg g0]
    exact h g0 h0

theorem pushNotIn_negative (l : AtomicFormula AST) (h : (pushNotIn l).negative = true) :
    ∀ name args, (pushNotIn l).ast = .func name args →
      pushNotInRelations.lookup name = none := by
  obtain ⟨n, p⟩ := l
  cases n with
  | false => simp [pushNotIn] at h
  | true =>
    cases p with
    | leaf id =>
      intro name args he
      simp [pushNotIn, pushPullNotInAtom] at he
    | func name0 args0 =>
      have e : pushNotIn ⟨true, .func name0 args0⟩ =
          pushPullNotInAtom ⟨true, .func name0 args0⟩ pushNotInRelations := by
        simp [pushNotIn]
      rw [e, pushPullNotInAtom_func] at h ⊢
      cases hl : pushNotInRelations.lookup name0 with
      | some inverse => rw [hl] at h; simp at h
      | none =>
        intro name args he
        simp only at he
        injection he with h1 _
        rw [← h1]
        exact hl

/-! ## Binarizing a binary tree -/

mutual
theorem splitMultiLogic_binary : ∀ t : AST, isBinary t = true → splitMultiLogic t = some t
  | .leaf _, _ => rfl
  | .func name args, hb => by
    have ih := splitMultiLogicList_binary args
    rw [isBinary] at hb
    rw [splitMultiLogic_func]
    by_cases hn : name = "and" ∨ name = "or"
    · rw [if_pos hn] at hb ⊢
      simp only [Bool.and_eq_true, decide_eq_true_eq] at hb
      rw [if_neg (by omega), ih hb.2]
      match args, hb.1 with
      | [x, y], _ => simp
    · rw [if_neg hn] at hb ⊢
      by_cases hnot : name = "not"
      · rw [if_pos hnot] at hb ⊢
        rw [ih hb]
        rfl
      · rw [if_neg hnot]
theorem splitMultiLogicList_binary : ∀ ts : List AST,
    isBinaryList ts = true → splitMultiLogicList ts = some ts
  | [], _ => rfl
  | c :: cs, hb => by
    simp only [isBinaryList, Bool.and_eq_true] at hb
    rw [splitMultiLogicList, splitMultiLogic_binary c hb.1, splitMultiLogicList_binary cs hb.2]
    rfl
end

/-! ## Shapes of the results of the Negation Pusher and of the Distributor -/

mutual
/-- Whether every "not" node reachable through "and" and "or" nodes has exactly one
child and that child is an atom. -/
def notsAboveAtoms : AST → Bool
  | .leaf _ => true
  | .func name args =>
    if name = "and" ∨ name = "or" then notsAboveAtomsList args
    else if name = "not" then
      match args with
      | [c] => decide (IsAtom c)
      | _ => false
    else true
/-- Whether every expression of the list has its "not" nodes above atoms. -/
def notsAboveAtomsList : List AST → Bool
  | [] => true
  | c :: cs => notsAboveAtoms c && notsAboveAtomsList cs
end

mutual
/-- Whether no "and" node is reachable through "and", "or" and "not" nodes (the
root included). -/
def noAndNode : AST → Bool
  | .leaf _ => true
  | .func name args =>
    if name = "and" then false
    else if name = "or" ∨ name = "not" then noAndNodeList args
    else true
/-- Whether no expression of the list has such an "and" node. -/
def noAndNodeList : List AST → Bool
  | [] => true
  | c :: cs => noAndNode c && noAndNodeList cs
end

mutual
/-- Whether no "and" node lies below an "or" node: every "or" node reachable through
"and" nodes has no "and" node under it. -/
def noAndBelowOr : AST → Bool
  | .leaf _ => true
  | .func name args =>
    if name = "and" then noAndBelowOrList args
    else if name = "or" ∨ name = "not" then noAndNodeList args
    else true
/-- Whether no expression of the list has an "and" node below an "or" node. -/
def noAndBelowOrList : List AST → Bool
  | [] => true
  | c :: cs => noAndBelowOr c && noAndBelowOrList cs
end

theorem notsAboveAtoms_lit (t : AST) (h : IsLit t) : notsAboveAtoms t = true := by
  cases h with
  | atom _ ha =>
    cases t with
    | leaf id => rfl
    | func name args =>
      obtain ⟨h1, h2, h3⟩ := ha
      simp [notsAboveAtoms, h1, h2, h3]
  | not c hc => simp [notsAboveAtoms, hc]

theorem notsAboveAtoms_nnf (t : AST) (h : IsNNF t) : notsAboveAtoms t = true := by
  induction h with
  | lit t hl => exact notsAboveAtoms_lit t hl
  | and x y _ _ ihx ihy => simp [notsAboveAtoms, notsAboveAtomsList, ihx, ihy]
  | or x y _ _ ihx ihy => simp [notsAboveAtoms, notsAboveAtomsList, ihx, ihy]

theorem noAndNode_atom (t : AST) (h : IsAtom t) : noAndNode t = true := by
  cases t with
  | leaf id => rfl
  | func name args =>
    obtain ⟨h1, h2, h3⟩ := h
    simp [noAndNode, h1, h2, h3]

theorem noAndNode_lit (t : AST) (h : IsLit t) : noAndNode t = true := by
  cases h with
  | atom _ ha => exact noAndNode_atom t ha
  | not c hc => simp [noAndNode, noAndNodeList, noAndNode_atom c hc]

theorem noAndNode_clause (t : AST) (h : IsClause t) : noAndNode t = true := by
  induction h with
  | lit t hl => exact noAndNode_lit t hl
  | or x y _ _ ihx ihy => simp [noAndNode, noAndNodeList, ihx, ihy]

theorem noAndBelowOr_clause (t : AST) (h : IsClause t) : noAndBelowOr t = true := by
  cases h with
  | lit _ hl =>
    cases hl with
    | atom _ ha =>
      cases t with
      | leaf id => rfl
      | func name args =>
        obtain ⟨h1, h2, h3⟩ := ha
        simp [noAndBelowOr, h1, h2, h3]
    | not c hc => simp [noAndBelowOr, noAndNodeList, noAndNode_atom c hc]
  | or x y hx hy =>
    simp [noAndBelowOr, noAndNodeList, noAndNode_clause x hx, noAndNode_clause y hy]

theorem noAndBelowOr_cnf (t : AST) (h : IsCNF t) : noAndBelowOr t = true := by
  induction h with
  | clause t hc => exact noAndBelowOr_clause t hc
  | and x y _ _ ihx ihy => simp [noAndBelowOr, noAndBelowOrList, ihx, ihy]

/-! ## More recursion depth does not change the result of the Distributor -/

theorem mapChildren_mono (f g : AST → Option AST)
    (hfg : ∀ t r, f t = some r → g t = some r) :
    ∀ (ts rs : List AST), mapChildren f ts = some rs → mapChildren g ts = some rs := by
  intro ts
  induction ts with
  | nil => intro rs h; exact h
  | cons c cs ih =>
    intro rs h
    rw [mapChildren] at h ⊢
    cases hc : f c with
    | none => rw [hc] at h; exact absurd h (by simp)
    | some c1 =>
      rw [hc] at h
      rw [hfg c c1 hc]
      cases hcs : mapChildren f cs with
      | none => rw [hcs] at h; exact absurd h (by simp)
      | some cs1 =>
        rw [hcs] at h
        rw [ih cs1 hcs]
        exact h

theorem distributeOr_mono (f g : AST → Option AST)
    (hfg : ∀ t r, f t = some r → g t = some r) (children : List AST) (r : AST)
    (h : distributeOr f children = some r) : distributeOr g children = some r := by
  unfold distributeOr at h ⊢
  split
  · rename_i h1
    rw [h1] at h
    exact h
  · rename_i i h1
    rw [h1] at h
    simp only at h ⊢
    split
    · rename_i h2
      rw [if_pos h2] at h
      exact absurd h (by simp)
    · rename_i h2
      rw [if_neg h2] at h
      split
      · rename_i b c rest a h3 h4
        rw [h3, h4] at h
        exact hfg _ _ h
      · rename_i h3
        split at h
        · rename_i b c rest a h4 h5
          exact absurd h5 (h3 _ _ _ _ _ h4)
        · exact absurd h (by simp)

theorem traversePushOr_succ : ∀ (n : Nat) (t r : AST),
    traversePushOr n t = some r → traversePushOr (n + 1) t = some r := by
  intro n
  induction n with
  | zero => intro t r h; simp [traversePushOr] at h
  | succ n ih =>
    intro t r h
    cases t with
    | leaf id => exact h
    | func name args =>
      rw [traversePushOr] at h ⊢
      split
      · rename_i hn
        rw [if_pos hn] at h
        cases hm : mapChildren (traversePushOr n) args with
        | none => rw [hm] at h; exact absurd h (by simp)
        | some children =>
          rw [hm] at h
          rw [mapChildren_mono _ _ ih args children hm]
          simp only at h ⊢
          split
          · rename_i ho
            rw [if_pos ho] at h
            exact distributeOr_mono _ _ ih children r h
          · rename_i ho
            rw [if_neg ho] at h
            exact h
      · rename_i hn
        rw [if_neg hn] at h
        exact h

theorem traversePushOr_le (n m : Nat) (hnm : n ≤ m) (t r : AST)
    (h : traversePushOr n t = some r) : traversePushOr m t = some r := by
  induction hnm with
  | refl => exact h
  | step _ ih => exact traversePushOr_succ _ t r ih

/-- The result of `traversePushOr` on a tree in negation normal form, at any
recursion depth that yields one, has CNF shape and the truth value of the tree. -/
theorem traversePushOr_result (t : AST) (h : IsNNF t) (n : Nat) (r : AST)
    (hr : traversePushOr n t = some r) : IsCNF r ∧ ∀ v, evalAST v r = evalAST v t := by
  obtain ⟨r1, h1, h2, h3, _⟩ := traversePushOr_nnf t h (max n (2 * pushOrWeight t))
    (le_max_right _ _)
  have h4 := traversePushOr_le n (max n (2 * pushOrWeight t)) (le_max_left _ _) t r hr
  rw [h1] at h4
  injection h4 with h4
  rw [← h4]
  exact ⟨h2, h3⟩

/-! ## Consensus on clauses without complementary literals -/

theorem negated_ne {α : Type} (l : AtomicFormula α) : l.negated ≠ l := by
  obtain ⟨n, p⟩ := l
  intro h
  simp only [AtomicFormula.negated, AtomicFormula.mk.injEq, and_true] at h
  cases n <;> simp at h

theorem negated_negated {α : Type} (l : AtomicFormula α) : l.negated.negated = l := by
  obtain ⟨n, p⟩ := l
  simp [AtomicFormula.negated]

/-- On a clause without complementary literals the inner loop of `reduceOnce` breaks
as soon as the flip of one of the literals it visits gives a clause of the CNF
value. -/
theorem reduceOnceScan_clean_some {α : Type} [LinearOrder α] (groups : AndGroup α)
    (g : OrGroup α) (hg : ∀ l ∈ g, l.negated ∉ g) :
    ∀ (atoms : List (AtomicFormula α)), (∀ x ∈ atoms, x ∈ g) →
      (∃ x ∈ atoms, insert x.negated (g.erase x) ∈ groups) →
      ∃ c, reduceOnceScan groups atoms g = some c := by
  intro atoms
  induction atoms with
  | nil => intro _ h; obtain ⟨x, hx, _⟩ := h; exact absurd hx (List.not_mem_nil x)
  | cons atom rest ih =>
    intro hatoms hex
    have hatom : atom ∈ g := hatoms atom (List.mem_cons_self _ _)
    have hneg : atom.negated ∉ g.erase atom :=
      fun hc => hg atom hatom (Finset.mem_of_mem_erase hc)
    rw [reduceOnceScan]
    split
    · exact ⟨_, rfl⟩
    · rename_i hmem
      rw [Finset.erase_insert hneg, Finset.insert_erase hatom]
      apply ih (fun x hx => hatoms x (List.mem_cons_of_mem _ hx))
      obtain ⟨x, hx, hxm⟩ := hex
      rcases List.mem_cons.mp hx with hx | hx
      · rw [hx] at hxm
        exact absurd hxm hmem
      · exact ⟨x, hx, hxm⟩

/-- On CNF values without complementary literals in a clause, `reduceOnce` changes
nothing exactly when no clause has a literal whose flip gives a clause of the
value. -/
theorem reduceOnce_fixed_iff_clean {α : Type} [LinearOrder α] (groups : AndGroup α)
    (h : NoComplementary groups) :
    groups = reduceOnce groups ↔
      ¬ ∃ g ∈ groups, ∃ l ∈ g, insert l.negated (g.erase l) ∈ groups := by
  rw [reduceOnce_fixed_iff]
  constructor
  · rintro hfix ⟨g, hg, l, hl, hmem⟩
    obtain ⟨c, hc⟩ := reduceOnceScan_clean_some groups g (h g hg) (OrGroup.elems g)
      (fun x hx => (OrGroup.mem_elems g x).mp hx)
      ⟨l, (OrGroup.mem_elems g l).mpr hl, hmem⟩
    have := (reduceOnceGroup_eq_iff groups g).mp (hfix g hg)
    rw [this] at hc
    exact absurd hc (by simp)
  · intro hno g hg
    rw [reduceOnceGroup_eq_iff]
    cases hs : reduceOnceScan groups (OrGroup.elems g) g with
    | none => rfl
    | some c =>
      obtain ⟨l, hl, hmem, _⟩ := reduceOnceScan_clean groups g (h g hg) _ c
        (fun x hx => (OrGroup.mem_elems g x).mp hx) hs
      exact absurd ⟨g, hg, l, hl, hmem⟩ hno

/-- The clause `C ∪ {l}` is rewritten to `C` by a pass of `reduceOnce` when `C` has no
complementary literals, `C ∪ {NOT l}` is a clause of the value, and no literal of `C`
has a flip that gives a clause of the value. -/
theorem reduceOnceGroup_consensus {α : Type} [LinearOrder α] (groups : AndGroup α)
    (c : OrGroup α) (l : AtomicFormula α) (hc : ∀ m ∈ c, m.negated ∉ c) (hl : l ∉ c)
    (hn : l.negated ∉ c) (hmem : insert l.negated c ∈ groups)
    (hother : ∀ m ∈ c, insert m.negated ((insert l c).erase m) ∉ groups) :
    reduceOnceGroup groups (insert l c) = c := by
  have hclean : ∀ m ∈ insert l c, m.negated ∉ insert l c := by
    intro m hm hneg
    rcases Finset.mem_insert.mp hm with hm | hm
    · subst hm
      rcases Finset.mem_insert.mp hneg with h1 | h1
      · exact negated_ne m h1
      · exact hn h1
    · rcases Finset.mem_insert.mp hneg with h1 | h1
      · apply hn
        rw [← h1, negated_negated]
        exact hm
      · exact hc m hm h1
  have herase : (insert l c).erase l = c := Finset.erase_insert hl
  obtain ⟨r, hr⟩ := reduceOnceScan_clean_some groups (insert l c) hclean
    (OrGroup.elems (insert l c)) (fun x hx => (OrGroup.mem_elems _ x).mp hx)
    ⟨l, (OrGroup.mem_elems _ l).mpr (Finset.mem_insert_self l c), by rw [herase]; exact hmem⟩
  obtain ⟨m, hm, hflip, hrm⟩ := reduceOnceScan_clean groups (insert l c) hclean _ r
    (fun x hx => (OrGroup.mem_elems _ x).mp hx) hr
  unfold reduceOnceGroup
  rw [hr]
  simp only
  rcases Finset.mem_insert.mp hm with h1 | h1
  · rw [hrm, h1, herase]
  · exact absurd hflip (hother m h1)

/-- Consensus absorption on a clause `C` without complementary literals: `reduce` of
`{C ∪ {l}, C ∪ {NOT l}}` is `{C}`. -/
theorem reduce_consensus_clean {α : Type} [LinearOrder α] (c : OrGroup α)
    (l : AtomicFormula α) (hc : ∀ m ∈ c, m.negated ∉ c) (hl : l ∉ c) (hn : l.negated ∉ c) :
    reduce ({insert l c, insert l.negated c} : CNFQuery α) = {c} := by
  have hother : ∀ (k : AtomicFormula α), k ∉ c → k.negated ∉ c → ∀ m ∈ c,
      insert m.negated ((insert k c).erase m) ∉
        ({insert k c, insert k.negated c} : CNFQuery α) := by
    intro k hk hkn m hm hmem
    have hmk : m ≠ k := fun e => hk (e ▸ hm)
    have hkin : k ∈ insert m.negated ((insert k c).erase m) :=
      Finset.mem_insert_of_mem (Finset.mem_erase.mpr ⟨fun e => hmk e.symm,
        Finset.mem_insert_self k c⟩)
    have hmout : m ∉ insert m.negated ((insert k c).erase m) := by
      intro h1
      rcases Finset.mem_insert.mp h1 with h2 | h2
      · exact negated_ne m h2.symm
      · exact (Finset.mem_erase.mp h2).1 rfl
    rcases Finset.mem_insert.mp hmem with h1 | h1
    · rw [h1] at hmout
      exact hmout (Finset.mem_insert_of_mem hm)
    · rw [Finset.mem_singleton] at h1
      rw [h1] at hkin
      rcases Finset.mem_insert.mp hkin with h2 | h2
      · exact negated_ne k h2.symm
      · exact hk h2
  have h1 : reduceOnceGroup {insert l c, insert l.negated c} (insert l c) = c :=
    reduceOnceGroup_consensus _ c l hc hl hn (by simp) (hother l hl hn)
  have h2 : reduceOnceGroup {insert l c, insert l.negated c} (insert l.negated c) = c := by
    have e : ({insert l c, insert l.negated c} : CNFQuery α) =
        {insert l.negated c, insert l.negated.negated c} := by
      rw [negated_negated, Finset.pair_comm]
    rw [e]
    exact reduceOnceGroup_consensus _ c l.negated hc hn (by rw [negated_negated]; exact hl)
      (by simp) (hother l.negated hn (by rw [negated_negated]; exact hl))
  have hstep : reduceOnce ({insert l c, insert l.negated c} : CNFQuery α) = {c} := by
    unfold reduceOnce
    rw [Finset.image_insert, Finset.image_singleton, h1, h2]
    simp
  have hne : ¬ ({insert l c, insert l.negated c} : CNFQuery α) =
      reduceOnce {insert l c, insert l.negated c} := by
    rw [hstep]
    intro e
    have : insert l c ∈ ({c} : CNFQuery α) := by rw [← e]; simp
    rw [Finset.mem_singleton] at this
    exact hl (this ▸ Finset.mem_insert_self l c)
  have hfix : ({c} : CNFQuery α) = reduceOnce {c} := by
    rw [reduceOnce_fixed_iff_clean]
    · rintro ⟨g, hg, m, hm, hmem⟩
      rw [Finset.mem_singleton] at hg hmem
      subst hg
      have : m ∈ insert m.negated (g.erase m) := by rw [hmem]; exact hm
      rcases Finset.mem_insert.mp this with h3 | h3
      · exact negated_ne m h3.symm
      · exact (Finset.mem_erase.mp h3).1 rfl
    · intro g hg
      rw [Finset.mem_singleton] at hg
      subst hg
      exact hc
  rw [reduce_unfold, if_neg hne, hstep, reduce_unfold, if_pos hfix]
  ext g
  rw [mem_filterSubsets]
  simp only [Finset.mem_singleton]
  constructor
  · exact fun h => h.1
  · intro h
    exact ⟨h, fun o ho _ => by rw [ho, h]⟩

/-! ## The Binarizer in the order of the source

`splitMultiLogic` above processes the children of a node before it chains them. The
source chains the unprocessed children and recurses into the chain; that order is
`splitMultiLogicDirect`, which needs a bound on the depth of the recursion. The two
agree. -/

/-- The node `splitMultiLogic` works on after its test `children.size() > 2`: the
chain `res` built from the (unprocessed) children, or the node itself. -/
def splitDirectNode (name : String) (args : List AST) : AST :=
  if args.length > 2 then
    match args with
    | c0 :: cs => cs.foldl (fun res c => makeASTFunction name [res, c]) c0
    | [] => .func name args
  else .func name args

/-- The function `splitMultiLogic`, statement by statement: the chain is built
first, then the function is called on the children of the new node. The first
argument bounds the depth of the recursion (`none` when it is used up). -/
def splitMultiLogicDirect : Nat → AST → Option AST
  | 0, _ => none
  | _ + 1, .leaf id => some (.leaf id)
  | fuel + 1, .func name args =>
    if name = "and" ∨ name = "or" then
      if args.length < 2 then none
      else
        match splitDirectNode name args with
        | .func name1 args1 =>
          (mapChildren (splitMultiLogicDirect fuel) args1).map (AST.func name1)
        | .leaf id => some (.leaf id)
    else if name = "not" then
      (mapChildren (splitMultiLogicDirect fuel) args).map (AST.func name)
    else some (.func name args)

theorem splitMultiLogicList_eq_mapChildren :
    ∀ ts : List AST, splitMultiLogicList ts = mapChildren splitMultiLogic ts := by
  intro ts
  induction ts with
  | nil => rfl
  | cons c cs ih =>
    rw [splitMultiLogicList, mapChildren, ih]

theorem splitMultiLogic_pair (name : String) (hn : name = "and" ∨ name = "or") (x y : AST) :
    splitMultiLogic (.func name [x, y]) =
      match splitMultiLogic x, splitMultiLogic y with
      | some x1, some y1 => some (.func name [x1, y1])
      | _, _ => none := by
  rw [splitMultiLogic_func, if_pos hn, if_neg (by simp)]
  simp only [splitMultiLogicList]
  cases splitMultiLogic x <;> cases splitMultiLogic y <;> simp

/-- The structural `splitMultiLogic` of the chain of the unprocessed children is the
chain of the processed children. -/
theorem splitMultiLogic_chain (name : String) (hn : name = "and" ∨ name = "or") :
    ∀ (cs : List AST) (c0 : AST),
      splitMultiLogic (cs.foldl (fun res c => makeASTFunction name [res, c]) c0) =
        match splitMultiLogic c0, splitMultiLogicList cs with
        | some c1, some cs1 => some (cs1.foldl (fun res c => makeASTFunction name [res, c]) c1)
        | _, _ => none := by
  intro cs
  induction cs with
  | nil =>
    intro c0
    simp only [List.foldl_nil, splitMultiLogicList]
    cases splitMultiLogic c0 <;> rfl
  | cons c cs ih =>
    intro c0
    simp only [List.foldl_cons]
    rw [ih, makeASTFunction, splitMultiLogic_pair name hn, splitMultiLogicList]
    cases splitMultiLogic c0 <;> cases splitMultiLogic c <;>
      cases splitMultiLogicList cs <;> simp [makeASTFunction]

/-- On a node with two or more children the structural `splitMultiLogic` has the same
result on the node and on the node `splitDirectNode` builds from it. -/
theorem splitMultiLogic_splitDirectNode (name : String) (hn : name = "and" ∨ name = "or")
    (args : List AST) (hl : ¬ args.length < 2) :
    splitMultiLogic (splitDirectNode name args) = splitMultiLogic (.func name args) := by
  unfold splitDirectNode
  split
  · rename_i h2
    match args, hl, h2 with
    | c0 :: cs, hl, h2 =>
      simp only
      rw [splitMultiLogic_chain name hn, splitMultiLogic_func, if_pos hn, if_neg hl,
        splitMultiLogicList]
      have h3 : 2 < cs.length + 1 := by simpa using h2
      cases splitMultiLogic c0 <;> cases splitMultiLogicList cs <;> simp [h3]
  · rfl

theorem splitDirectNode_binary (name : String) (args : List AST) (hl : ¬ args.length < 2) :
    ∃ x y, splitDirectNode name args = .func name [x, y] := by
  have hchain : ∀ (cs : List AST) (c0 : AST), cs ≠ [] →
      ∃ x y, cs.foldl (fun res c => makeASTFunction name [res, c]) c0 = .func name [x, y] := by
    intro cs
    induction cs with
    | nil => intro c0 h; exact absurd rfl h
    | cons c cs ih =>
      intro c0 _
      simp only [List.foldl_cons]
      cases cs with
      | nil => exact ⟨c0, c, rfl⟩
      | cons d ds => exact ih _ (by simp)
  unfold splitDirectNode
  split
  · match args, hl with
    | c0 :: c :: cs, _ => exact hchain (c :: cs) c0 (by simp)
  · rename_i h2
    match args, hl, h2 with
    | [], hl, _ => simp at hl
    | [_], hl, _ => simp at hl
    | [x, y], _, _ => exact ⟨x, y, rfl⟩
    | _ :: _ :: _ :: _, _, h2 => simp at h2

theorem splitMultiLogicDirect_pair (name : String) (hn : name = "and" ∨ name = "or")
    (x y : AST) (n : Nat) :
    splitMultiLogicDirect (n + 1) (.func name [x, y]) =
      match splitMultiLogicDirect n x, splitMultiLogicDirect n y with
      | some x1, some y1 => some (.func name [x1, y1])
      | _, _ => none := by
  rw [splitMultiLogicDirect, if_pos hn, if_neg (by simp)]
  cases hx : splitMultiLogicDirect n x <;> cases hy : splitMultiLogicDirect n y <;>
    simp [splitDirectNode, mapChildren, hx, hy]

/-- On a node with two or more children `splitMultiLogicDirect` works on the node
`splitDirectNode` builds. -/
theorem splitMultiLogicDirect_logic (name : String) (hn : name = "and" ∨ name = "or")
    (args : List AST) (hl : ¬ args.length < 2) (n : Nat) :
    splitMultiLogicDirect (n + 1) (.func name args) =
      splitMultiLogicDirect (n + 1) (splitDirectNode name args) := by
  obtain ⟨x, y, hxy⟩ := splitDirectNode_binary name args hl
  rw [splitMultiLogicDirect, if_pos hn, if_neg hl, hxy, splitMultiLogicDirect_pair name hn]
  simp only [mapChildren]
  cases splitMultiLogicDirect n x <;> cases splitMultiLogicDirect n y <;> simp

/-- Whatever `splitMultiLogicDirect` returns, the structural `splitMultiLogic`
returns. -/
theorem splitMultiLogicDirect_sound : ∀ (n : Nat) (t r : AST),
    splitMultiLogicDirect n t = some r → splitMultiLogic t = some r := by
  intro n
  induction n with
  | zero => intro t r h; simp [splitMultiLogicDirect] at h
  | succ n ih =>
    intro t r h
    cases t with
    | leaf id => exact h
    | func name args =>
      by_cases hn : name = "and" ∨ name = "or"
      · by_cases hl : args.length < 2
        · rw [splitMultiLogicDirect, if_pos hn, if_pos hl] at h
          exact absurd h (by simp)
        · rw [splitMultiLogicDirect_logic name hn args hl] at h
          rw [← splitMultiLogic_splitDirectNode name hn args hl]
          obtain ⟨x, y, hxy⟩ := splitDirectNode_binary name args hl
          rw [hxy] at h ⊢
          rw [splitMultiLogicDirect_pair name hn] at h
          rw [splitMultiLogic_pair name hn]
          cases hx : splitMultiLogicDirect n x with
          | none => rw [hx] at h; exact absurd h (by simp)
          | some x1 =>
            cases hy : splitMultiLogicDirect n y with
            | none => rw [hx, hy] at h; exact absurd h (by simp)
            | some y1 =>
              rw [hx, hy] at h
              rw [ih x x1 hx, ih y y1 hy]
              exact h
      · rw [splitMultiLogicDirect, if_neg hn] at h
        rw [splitMultiLogic_func, if_neg hn]
        by_cases hnot : name = "not"
        · rw [if_pos hnot] at h ⊢
          rw [splitMultiLogicList_eq_mapChildren]
          cases hm : mapChildren (splitMultiLogicDirect n) args with
          | none => rw [hm] at h; exact absurd h (by simp)
          | some rs =>
            rw [hm] at h
            rw [mapChildren_mono _ _ ih args rs hm]
            exact h
        · rw [if_neg hnot] at h ⊢
          exact h

theorem splitMultiLogicDirect_succ : ∀ (n : Nat) (t r : AST),
    splitMultiLogicDirect n t = some r → splitMultiLogicDirect (n + 1) t = some r := by
  intro n
  induction n with
  | zero => intro t r h; simp [splitMultiLogicDirect] at h
  | succ n ih =>
    intro t r h
    cases t with
    | leaf id => exact h
    | func name args =>
      rw [splitMultiLogicDirect] at h ⊢
      split
      · rename_i hn
        rw [if_pos hn] at h
        split
        · rename_i hl
          rw [if_pos hl] at h
          exact absurd h (by simp)
        · rename_i hl
          rw [if_neg hl] at h
          split
          · rename_i name1 args1 hnode
            rw [hnode] at h
            simp only at h
            cases hm : mapChildren (splitMultiLogicDirect n) args1 with
            | none => rw [hm] at h; exact absurd h (by simp)
            | some rs =>
              rw [hm] at h
              rw [mapChildren_mono _ _ ih args1 rs hm]
              exact h
          · rename_i id hnode
            rw [hnode] at h
            exact h
      · rename_i hn
        rw [if_neg hn] at h
        split
        · rename_i hnot
          rw [if_pos hnot] at h
          cases hm : mapChildren (splitMultiLogicDirect n) args with
          | none => rw [hm] at h; exact absurd h (by simp)
          | some rs =>
            rw [hm] at h
            rw [mapChildren_mono _ _ ih args rs hm]
            exact h
        · rename_i hnot
          rw [if_neg hnot] at h
          exact h

theorem splitMultiLogicDirect_le (n m : Nat) (hnm : n ≤ m) (t r : AST)
    (h : splitMultiLogicDirect n t = some r) : splitMultiLogicDirect m t = some r := by
  induction hnm with
  | refl => exact h
  | step _ ih => exact splitMultiLogicDirect_succ _ t r ih

theorem splitDirectNode_eq_chain (name : String) (c0 : AST) (cs : List AST)
    (hl : ¬ (c0 :: cs).length < 2) :
    splitDirectNode name (c0 :: cs) = cs.foldl (fun res c => makeASTFunction name [res, c]) c0 := by
  unfold splitDirectNode
  split
  · rfl
  · rename_i h2
    match cs, hl, h2 with
    | [], hl, _ => simp at hl
    | [c], _, _ => rfl
    | _ :: _ :: _, _, h2 => simp at h2

theorem splitMultiLogicDirect_chain (name : String) (hn : name = "and" ∨ name = "or") :
    ∀ (cs : List AST) (c0 c1 : AST) (cs1 : List AST),
      (∃ n, splitMultiLogicDirect n c0 = some c1) →
      (∃ n, mapChildren (splitMultiLogicDirect n) cs = some cs1) →
      ∃ n, splitMultiLogicDirect n (cs.foldl (fun res c => makeASTFunction name [res, c]) c0) =
        some (cs1.foldl (fun res c => makeASTFunction name [res, c]) c1) := by
  intro cs
  induction cs with
  | nil =>
    intro c0 c1 cs1 h0 hcs
    obtain ⟨n, hn1⟩ := hcs
    simp only [mapChildren, Option.some.injEq] at hn1
    rw [← hn1]
    exact h0
  | cons c cs ih =>
    intro c0 c1 cs1 h0 hcs
    obtain ⟨n0, h0⟩ := h0
    obtain ⟨n, hcs⟩ := hcs
    rw [mapChildren] at hcs
    cases hc : splitMultiLogicDirect n c with
    | none => rw [hc] at hcs; exact absurd hcs (by simp)
    | some c2 =>
      cases hrest : mapChildren (splitMultiLogicDirect n) cs with
      | none => rw [hc, hrest] at hcs; exact absurd hcs (by simp)
      | some cs2 =>
        rw [hc, hrest] at hcs
        simp only [Option.map_some', Option.some.injEq] at hcs
        rw [← hcs]
        simp only [List.foldl_cons]
        apply ih _ _ cs2 ?_ ⟨n, hrest⟩
        refine ⟨max n0 n + 1, ?_⟩
        rw [makeASTFunction, splitMultiLogicDirect_pair name hn,
          splitMultiLogicDirect_le n0 _ (le_max_left n0 n) c0 c1 h0,
          splitMultiLogicDirect_le n _ (le_max_right n0 n) c c2 hc]
        rfl

mutual
theorem splitMultiLogicDirect_complete : ∀ (t r : AST),
    splitMultiLogic t = some r → ∃ n, splitMultiLogicDirect n t = some r
  | .leaf id, r, h => ⟨1, h⟩
  | .func name args, r, h => by
    have ihl := splitMultiLogicDirect_completeList args
    by_cases hn : name = "and" ∨ name = "or"
    · by_cases hl : args.length < 2
      · rw [splitMultiLogic_func, if_pos hn, if_pos hl] at h
        exact absurd h (by simp)
      · match args, hl, h, ihl with
        | [], hl, _, _ => simp at hl
        | c0 :: cs, hl, h, ihl =>
          rw [← splitMultiLogic_splitDirectNode name hn _ hl, splitDirectNode_eq_chain name c0 cs hl,
            splitMultiLogic_chain name hn] at h
          cases h0 : splitMultiLogic c0 with
          | none => rw [h0] at h; exact absurd h (by simp)
          | some c1 =>
            cases hcs : splitMultiLogicList cs with
            | none => rw [h0, hcs] at h; exact absurd h (by simp)
            | some cs1 =>
              rw [h0, hcs] at h
              simp only [Option.some.injEq] at h
              have hall := ihl (c1 :: cs1) (by rw [splitMultiLogicList, h0, hcs]; rfl)
              obtain ⟨n, hall⟩ := hall
              rw [mapChildren] at hall
              cases hd0 : splitMultiLogicDirect n c0 with
              | none => rw [hd0] at hall; exact absurd hall (by simp)
              | some d0 =>
                cases hdcs : mapChildren (splitMultiLogicDirect n) cs with
                | none => rw [hd0, hdcs] at hall; exact absurd hall (by simp)
                | some dcs =>
                  rw [hd0, hdcs] at hall
                  simp only [Option.map_some', Option.some.injEq, List.cons.injEq] at hall
                  obtain ⟨m, hm⟩ := splitMultiLogicDirect_chain name hn cs c0 c1 cs1
                    ⟨n, by rw [hd0, hall.1]⟩ ⟨n, by rw [hdcs, hall.2]⟩
                  refine ⟨m + 1, ?_⟩
                  rw [splitMultiLogicDirect_logic name hn _ hl, splitDirectNode_eq_chain name c0 cs hl,
                    ← h]
                  exact splitMultiLogicDirect_succ m _ _ hm
    · rw [splitMultiLogic_func, if_neg hn] at h
      by_cases hnot : name = "not"
      · rw [if_pos hnot] at h
        cases hcs : splitMultiLogicList args with
        | none => rw [hcs] at h; exact absurd h (by simp)
        | some rs =>
          rw [hcs] at h
          obtain ⟨n, hrs⟩ := ihl rs hcs
          refine ⟨n + 1, ?_⟩
          rw [splitMultiLogicDirect, if_neg hn, if_pos hnot, hrs]
          exact h
      · rw [if_neg hnot] at h
        exact ⟨1, by rw [splitMultiLogicDirect, if_neg hn, if_neg hnot]; exact h⟩
theorem splitMultiLogicDirect_completeList : ∀ (ts rs : List AST),
    splitMultiLogicList ts = some rs →
      ∃ n, mapChildren (splitMultiLogicDirect n) ts = some rs
  | [], rs, h => ⟨0, h⟩
  | c :: cs, rs, h => by
    rw [splitMultiLogicList] at h
    cases hc : splitMultiLogic c with
    | none => rw [hc] at h; exact absurd h (by simp)
    | some c1 =>
      cases hcs : splitMultiLogicList cs with
      | none => rw [hc, hcs] at h; exact absurd h (by simp)
      | some cs1 =>
        rw [hc, hcs] at h
        obtain ⟨n1, h1⟩ := splitMultiLogicDirect_complete c c1 hc
        obtain ⟨n2, h2⟩ := splitMultiLogicDirect_completeList cs cs1 hcs
        refine ⟨max n1 n2, ?_⟩
        rw [mapChildren, splitMultiLogicDirect_le n1 _ (le_max_left n1 n2) c c1 h1,
          mapChildren_mono _ _ (fun t r => splitMultiLogicDirect_le n2 _ (le_max_right n1 n2) t r)
            cs cs1 h2]
        exact h
end

/-- The two orders agree: with enough recursion depth the function of the source,
taken statement by statement, returns what `splitMultiLogic` returns, and fails where
it fails. -/
theorem splitMultiLogicDirect_eq (t : AST) :
    ∃ n, ∀ m, n ≤ m → splitMultiLogicDirect m t = splitMultiLogic t := by
  cases h : splitMultiLogic t with
  | none =>
    refine ⟨0, fun m _ => ?_⟩
    cases hd : splitMultiLogicDirect m t with
    | none => rfl
    | some r =>
      have := splitMultiLogicDirect_sound m t r hd
      rw [h] at this
      exact absurd this (by simp)
  | some r =>
    obtain ⟨n, hn⟩ := splitMultiLogicDirect_complete t r h
    exact ⟨n, fun m hm => splitMultiLogicDirect_le n m hm t r hn⟩

/-! ## The claims -/

/-- Whether an optional result is present and equal to `y`. -/
def resultIs {β : Type} [DecidableEq β] (o : Option β) (y : β) : Bool :=
  match o with
  | some x => decide (x = y)
  | none => false

theorem eq_some_of_resultIs {β : Type} [DecidableEq β] {o : Option β} {y : β}
    (h : resultIs o y = true) : o = some y := by
  cases o with
  | none => simp [resultIs] at h
  | some x =>
    simp only [resultIs, decide_eq_true_eq] at h
    rw [h]

/-- C1: at `OR(x, NOT y)` the tree returned by `fromCNF(toCNF(e))` is `OR(x, y)`, which
is false when `x` and `y` are false, while the expression is true: the round trip
does not keep the truth value. -/
theorem fromCNF_toCNF_changes_value :
    toCNF (.func "or" [.leaf 0, .func "not" [.leaf 1]]) =
        some {{⟨false, .leaf 0⟩, ⟨true, .leaf 1⟩}} ∧
      fromCNF {{⟨false, .leaf 0⟩, ⟨true, .leaf 1⟩}} = some (.func "or" [.leaf 0, .leaf 1]) ∧
      evalAST (fun _ => false) (.func "or" [.leaf 0, .leaf 1]) = false ∧
      evalAST (fun _ => false) (.func "or" [.leaf 0, .func "not" [.leaf 1]]) = true :=
  ⟨eq_some_of_resultIs (by decide), by decide, by decide, by decide⟩

/-- C2: for a clause of two or more literals `fromCNF` builds an OR node whose
children are all wrapped in NOT or all left bare, according to the flag of one
literal, the first of the clause: `{x, NOT y}` becomes `OR(x, y)` and `{NOT x, y}`
becomes `OR(NOT x, NOT y)`. -/
theorem fromCNF_uses_first_flag :
    (∀ group : OrGroup AST, 1 < group.card → ∃ first ∈ group,
      fromCNFGroup group = some (makeASTFunction "or" ((OrGroup.elems group).map (fun atom =>
        if first.negative then makeASTFunction "not" [atom.ast] else atom.ast)))) ∧
    fromCNF {{⟨false, .leaf 0⟩, ⟨true, .leaf 1⟩}} = some (.func "or" [.leaf 0, .leaf 1]) ∧
    fromCNF {{⟨true, .leaf 0⟩, ⟨false, .leaf 1⟩}} =
      some (.func "or" [.func "not" [.leaf 0], .func "not" [.leaf 1]]) := by
  refine ⟨fun group h => ?_, by decide, by decide⟩
  obtain ⟨x, hx⟩ := Finset.card_pos.mp (by omega : 0 < group.card)
  have hxe := (OrGroup.mem_elems group x).mpr hx
  cases he : OrGroup.elems group with
  | nil => rw [he] at hxe; exact absurd hxe (List.not_mem_nil x)
  | cons first rest =>
    refine ⟨first, (OrGroup.mem_elems group first).mp (by rw [he]; exact List.mem_cons_self _ _), ?_⟩
    unfold fromCNFGroup
    rw [he]
    simp only [List.head?_cons]
    rw [if_neg (by omega), if_pos h]

/-- C3: the CNF value returned by `toCNF` has the truth value of the expression under
every valuation; `toCNF(OR(AND(a, b), c))` is `{{a, c}, {b, c}}`; and `toCNF` of a
conjunction of two or more atoms is the set of their singleton clauses. -/
theorem toCNF_equivalent :
    (∀ (e : AST) (cnf : CNFQuery AST), toCNF e = some cnf →
      ∀ v : AST → Bool, evalCNF v cnf = evalAST v e) ∧
    (∀ a b c : AST, IsAtom a → IsAtom b → IsAtom c →
      toCNF (.func "or" [.func "and" [a, b], c]) =
        some {{⟨false, a⟩, ⟨false, c⟩}, {⟨false, b⟩, ⟨false, c⟩}}) ∧
    (∀ atoms : List AST, 2 ≤ atoms.length → (∀ a ∈ atoms, IsAtom a) →
      toCNF (.func "and" atoms) =
        some (atoms.map (fun a => ({⟨false, a⟩} : OrGroup AST))).toFinset) := by
  refine ⟨fun e cnf h v => ?_, toCNF_or_and, toCNF_and_atoms⟩
  have hs := toCNF_spec e
  cases hm : hasMalformed e with
  | true => rw [hs.1 hm] at h; exact absurd h (by simp)
  | false =>
    obtain ⟨cnf1, h1, h2, _⟩ := hs.2 hm
    rw [h1] at h
    injection h with h
    rw [← h]
    exact h2 v

/-- C3, at an expression: `NOT(OR(x, AND(y, NOT z)))` with `z` the atom
`equals(1, 2)`. -/
theorem toCNF_equivalent_witness :
    toCNF (.func "not" [.func "or" [.leaf 0,
        .func "and" [.leaf 1, .func "not" [.func "equals" [.leaf 1, .leaf 2]]]]]) =
      some {{⟨true, .leaf 0⟩}, {⟨false, .func "equals" [.leaf 1, .leaf 2]⟩, ⟨true, .leaf 1⟩}} ∧
    evalCNF (fun t : AST => decide (t = AST.leaf 1))
        {{⟨true, .leaf 0⟩}, {⟨false, .func "equals" [.leaf 1, .leaf 2]⟩, ⟨true, .leaf 1⟩}} =
      evalAST (fun t : AST => decide (t = AST.leaf 1))
        (.func "not" [.func "or" [.leaf 0,
          .func "and" [.leaf 1, .func "not" [.func "equals" [.leaf 1, .leaf 2]]]]]) :=
  ⟨eq_some_of_resultIs (by decide),
    toCNF_equivalent.1 _ _ (eq_some_of_resultIs (by decide)) _⟩

/-- C4: `toCNF` fails exactly on the expressions that have, reachable through "and",
"or" and "not" nodes, an "and" or "or" node with fewer than two children or a "not"
node whose number of children is not one; on every other expression it returns a CNF
value. -/
theorem toCNF_fails_iff (e : AST) :
    (toCNF e = none ↔ hasMalformed e = true) ∧
    (hasMalformed e = false → ∃ cnf, toCNF e = some cnf) := by
  have hs := toCNF_spec e
  refine ⟨⟨fun h => ?_, hs.1⟩, fun h => ?_⟩
  · cases hm : hasMalformed e with
    | true => rfl
    | false =>
      obtain ⟨cnf, h1, _⟩ := hs.2 hm
      rw [h1] at h
      exact absurd h (by simp)
  · obtain ⟨cnf, h1, _⟩ := hs.2 h
    exact ⟨cnf, h1⟩

/-- C4, at two expressions: `AND(x)` under a NOT is rejected, `AND(x, y, z)` is
converted. -/
theorem toCNF_fails_iff_witness :
    toCNF (.func "not" [.func "and" [.leaf 0]]) = none ∧
      ∃ cnf, toCNF (.func "and" [.leaf 0, .leaf 1, .leaf 2]) = some cnf :=
  ⟨(toCNF_fails_iff _).1.2 (by decide), (toCNF_fails_iff _).2 (by decide)⟩


/-- C5: `reduce` turns the CNF value `{{NOT x}, {x, NOT x}}`, which `toCNF` returns
for `AND(NOT x, OR(x, NOT x))` and which is true when `x` is false, into the value
`{{}}` of one empty clause, which is false. -/
theorem reduce_changes_value :
    toCNF (.func "and" [.func "not" [.leaf 0], .func "or" [.leaf 0, .func "not" [.leaf 0]]]) =
        some {{⟨true, .leaf 0⟩}, {⟨false, .leaf 0⟩, ⟨true, .leaf 0⟩}} ∧
      reduce ({{⟨true, .leaf 0⟩}, {⟨false, .leaf 0⟩, ⟨true, .leaf 0⟩}} : CNFQuery AST) = {∅} ∧
      evalCNF (fun _ => false)
        ({{⟨true, .leaf 0⟩}, {⟨false, .leaf 0⟩, ⟨true, .leaf 0⟩}} : CNFQuery AST) = true ∧
      evalCNF (fun _ => false) ({∅} : CNFQuery AST) = false := by
  refine ⟨eq_some_of_resultIs (by decide), ?_, by decide, by decide⟩
  rw [reduce_unfold, if_neg (by decide), reduce_unfold, if_pos (by decide)]
  decide

/-- C6: `reduce` is idempotent: `reduce(reduce(v))` and `reduce(v)` are the same set of
clauses. -/
theorem reduce_idempotent {α : Type} [LinearOrder α] (v : CNFQuery α) :
    reduce (reduce v) = reduce v := by
  obtain ⟨s, hs, hr, _⟩ := reduce_spec v
  rw [hr, reduce_unfold, if_pos (reduceOnce_filterSubsets s hs), filterSubsets_idem]

/-- C7: no clause of `reduce(v)` is a strict superset of another clause of
`reduce(v)`; and `reduce` of `{a} AND {a, b}` is `{a}`. -/
theorem reduce_no_strict_superset {α : Type} [LinearOrder α] :
    (∀ (v : CNFQuery α) (g h : OrGroup α), g ∈ reduce v → h ∈ reduce v → ¬ h ⊂ g) ∧
    (∀ a b : α, reduce ({{⟨false, a⟩}, {⟨false, a⟩, ⟨false, b⟩}} : CNFQuery α) =
      {{⟨false, a⟩}}) := by
  constructor
  · intro v g h hg hh hsub
    obtain ⟨s, _, hr, _⟩ := reduce_spec v
    rw [hr] at hg hh
    have h1 := ((mem_filterSubsets s g).mp hg).2 h (filterSubsets_subset s hh) hsub.1
    exact hsub.2 (by rw [h1])
  · intro a b
    have hpos : ∀ g ∈ ({{⟨false, a⟩}, {⟨false, a⟩, ⟨false, b⟩}} : CNFQuery α),
        ∀ l ∈ g, l.negative = false := by
      intro g hg l hl
      simp only [Finset.mem_insert, Finset.mem_singleton] at hg
      rcases hg with hg | hg <;> subst hg <;>
        simp only [Finset.mem_insert, Finset.mem_singleton] at hl
      · rw [hl]
      · rcases hl with hl | hl <;> rw [hl]
    rw [reduce_unfold, if_pos (reduceOnce_positive _ hpos)]
    ext g
    rw [mem_filterSubsets]
    simp only [Finset.mem_insert, Finset.mem_singleton]
    constructor
    · rintro ⟨hg | hg, hmin⟩
      · exact hg
      · have := hmin {⟨false, a⟩} (Or.inl rfl) (by rw [hg]; simp)
        exact this.symm
    · intro hg
      refine ⟨Or.inl hg, fun o ho hsub => ?_⟩
      rcases ho with ho | ho
      · rw [ho, hg]
      · rw [hg]
        apply Finset.Subset.antisymm (by rw [← hg]; exact hsub)
        rw [ho]
        simp

/-- C8: the loop of `reduce` leaves after finitely many passes of `reduceOnce`, at the
first iterate that is a fixed point, whose `filterSubsets` it returns; and `reduce(v)`
has at most as many clauses as `v`. -/
theorem reduce_terminates {α : Type} [LinearOrder α] (v : CNFQuery α) :
    (∃ n, (∀ m < n, reduceOnce^[m] v ≠ reduceOnce (reduceOnce^[m] v)) ∧
      reduceOnce^[n] v = reduceOnce (reduceOnce^[n] v) ∧
      reduce v = filterSubsets (reduceOnce^[n] v)) ∧
    (reduce v).card ≤ v.card := by
  obtain ⟨n, _, h1, h2, h3⟩ := reduce_eq_filterSubsets (AndGroup.weight v) v (le_refl _)
  refine ⟨⟨n, h1, h2, h3⟩, ?_⟩
  rw [h3]
  exact le_trans (Finset.card_le_card (filterSubsets_subset _)) (card_iterate_reduceOnce v n)

/-- C9, as stated, fails: `toCNF(AND(x, NOT x))` is `{{x}, {NOT x}}`, and `reduce` of
it has the empty clause. -/
theorem reduce_yields_empty_clause :
    toCNF (.func "and" [.leaf 0, .func "not" [.leaf 0]]) =
        some {{⟨false, .leaf 0⟩}, {⟨true, .leaf 0⟩}} ∧
      (∅ : OrGroup AST) ∈ reduce ({{⟨false, .leaf 0⟩}, {⟨true, .leaf 0⟩}} : CNFQuery AST) := by
  refine ⟨eq_some_of_resultIs (by decide), ?_⟩
  rw [reduce_unfold, if_neg (by decide), reduce_unfold, if_pos (by decide)]
  decide

/-- C9, amended: every CNF value returned by `toCNF` has only non-empty clauses, and
so has every CNF value obtained from it by `pullNotOut` and `pushNotIn`, in any
number and order. -/
theorem toCNF_clauses_nonempty (e : AST) (cnf : CNFQuery AST) (h : toCNF e = some cnf)
    (c : CNFQuery AST) (hr : PolarityReachable cnf c) : ∀ g ∈ c, g ≠ ∅ := by
  induction hr with
  | start =>
    have hs := toCNF_spec e
    cases hm : hasMalformed e with
    | true => rw [hs.1 hm] at h; exact absurd h (by simp)
    | false =>
      obtain ⟨cnf1, h1, _, h3⟩ := hs.2 hm
      rw [h1] at h
      injection h with h
      rw [← h]
      exact h3
  | pull c1 _ ih => exact transformAtoms_nonempty c1 pullNotOut ih
  | push c1 _ ih => exact transformAtoms_nonempty c1 pushNotIn ih

/-- C9, amended, at `AND(notEquals(x, y), NOT z)`, after `pullNotOut` and then
`pushNotIn`. -/
theorem toCNF_clauses_nonempty_witness :
    toCNF (.func "and" [.func "notEquals" [.leaf 0, .leaf 1], .func "not" [.leaf 2]]) =
        some {{⟨false, .func "notEquals" [.leaf 0, .leaf 1]⟩}, {⟨true, .leaf 2⟩}} ∧
      ∀ g ∈ pushNotInFuntions (pullNotOutFunctions
          ({{⟨false, .func "notEquals" [.leaf 0, .leaf 1]⟩}, {⟨true, .leaf 2⟩}} : CNFQuery AST)),
        g ≠ ∅ :=
  ⟨eq_some_of_resultIs (by decide),
    toCNF_clauses_nonempty
      (.func "and" [.func "notEquals" [.leaf 0, .leaf 1], .func "not" [.leaf 2]]) _
      (eq_some_of_resultIs (by decide)) _
      (PolarityReachable.push _ (PolarityReachable.pull _ PolarityReachable.start))⟩

/-- C10: `pullNotOut` replaces each of the six names of its table by the paired name,
keeps the arguments and inverts the flag, whatever the flag is; it leaves every other
literal unchanged. -/
theorem pullNotOut_spec (n : Bool) (args : List AST) :
    pullNotOut ⟨n, .func "notEquals" args⟩ = ⟨!n, .func "equals" args⟩ ∧
    pullNotOut ⟨n, .func "greaterOrEquals" args⟩ = ⟨!n, .func "less" args⟩ ∧
    pullNotOut ⟨n, .func "greater" args⟩ = ⟨!n, .func "lessOrEquals" args⟩ ∧
    pullNotOut ⟨n, .func "notIn" args⟩ = ⟨!n, .func "in" args⟩ ∧
    pullNotOut ⟨n, .func "notLike" args⟩ = ⟨!n, .func "like" args⟩ ∧
    pullNotOut ⟨n, .func "notEmpty" args⟩ = ⟨!n, .func "empty" args⟩ ∧
    (∀ p : AST,
      (∀ name args1, p = .func name args1 →
        name ∉ ["notEquals", "greaterOrEquals", "greater", "notIn", "notLike", "notEmpty"]) →
      pullNotOut ⟨n, p⟩ = ⟨n, p⟩) ∧
    pullNotOut ⟨false, .func "notEquals" [.leaf 0, .leaf 1]⟩ =
      ⟨true, .func "equals" [.leaf 0, .leaf 1]⟩ := by
  refine ⟨rfl, rfl, rfl, rfl, rfl, rfl, fun p hp => ?_, rfl⟩
  cases p with
  | leaf id => rfl
  | func name args1 =>
    have h := hp name args1 rfl
    simp only [List.mem_cons, List.mem_singleton, List.not_mem_nil, or_false, not_or] at h
    obtain ⟨h1, h2, h3, h4, h5, h6⟩ := h
    have b1 : (name == "notEquals") = false := beq_eq_false_iff_ne.mpr h1
    have b2 : (name == "greaterOrEquals") = false := beq_eq_false_iff_ne.mpr h2
    have b3 : (name == "greater") = false := beq_eq_false_iff_ne.mpr h3
    have b4 : (name == "notIn") = false := beq_eq_false_iff_ne.mpr h4
    have b5 : (name == "notLike") = false := beq_eq_false_iff_ne.mpr h5
    have b6 : (name == "notEmpty") = false := beq_eq_false_iff_ne.mpr h6
    simp only [pullNotOut, pushPullNotInAtom, pullNotOutRelations, List.lookup, b1, b2, b3, b4,
      b5, b6]


/-- C11: `pushNotIn` leaves every non-negated literal unchanged and rewrites every
negated literal named by one of the twelve relations of its table to the paired
relation with the flag cleared; the literals of `pushNotIn(v)` are the images of the
literals of `v`, so none of them is both negated and named by a relation of the
table. -/
theorem pushNotIn_spec :
    (∀ p : AST, pushNotIn ⟨false, p⟩ = ⟨false, p⟩) ∧
    (∀ pair ∈ [("equals", "notEquals"), ("less", "greaterOrEquals"),
        ("lessOrEquals", "greater"), ("in", "notIn"), ("like", "notLike"),
        ("empty", "notEmpty"), ("notEquals", "equals"), ("greaterOrEquals", "less"),
        ("greater", "lessOrEquals"), ("notIn", "in"), ("notLike", "like"),
        ("notEmpty", "empty")],
      ∀ args : List AST,
        pushNotIn ⟨true, .func pair.1 args⟩ = ⟨false, .func pair.2 args⟩) ∧
    (∀ (cnf : CNFQuery AST) (g : OrGroup AST),
      g ∈ pushNotInFuntions cnf ↔ ∃ g0 ∈ cnf, g0.image pushNotIn = g) ∧
    (∀ (cnf : CNFQuery AST) (g : OrGroup AST) (l : AtomicFormula AST),
      g ∈ pushNotInFuntions cnf → l ∈ g → l.negative = true →
      ∀ name args, l.ast = .func name args →
        name ∉ ["equals", "less", "lessOrEquals", "in", "like", "empty", "notEquals",
          "greaterOrEquals", "greater", "notIn", "notLike", "notEmpty"]) := by
  refine ⟨fun p => rfl, fun pair h args => ?_, fun cnf g => ?_, ?_⟩
  · simp only [List.mem_cons, List.mem_singleton, List.not_mem_nil, or_false] at h
    rcases h with rfl | rfl | rfl | rfl | rfl | rfl | rfl | rfl | rfl | rfl | rfl | rfl <;> rfl
  · unfold pushNotInFuntions transformAtoms
    exact Finset.mem_image
  · intro cnf g l hg hl hn name args he hmem
    unfold pushNotInFuntions transformAtoms at hg
    obtain ⟨g0, _, rfl⟩ := Finset.mem_image.mp hg
    obtain ⟨l0, _, rfl⟩ := Finset.mem_image.mp hl
    have hnone := pushNotIn_negative l0 hn name args he
    have hsome : (pushNotInRelations.lookup name).isSome = true := by
      simp only [List.mem_cons, List.mem_singleton, List.not_mem_nil, or_false] at hmem
      rcases hmem with rfl | rfl | rfl | rfl | rfl | rfl | rfl | rfl | rfl | rfl | rfl | rfl <;>
        rfl
    rw [hnone] at hsome
    exact absurd hsome (by simp)

/-- C12: under a valuation that gives the two relations of each pair of the table
opposite truth values on the same arguments, `pullNotOut(pushNotIn(v))` and
`pushNotIn(pullNotOut(v))` have the truth value of `v` (whatever the atoms of `v`
are). -/
theorem polarity_roundtrip (v : AST → Bool) (hv : PairedOpposite v) (cnf : CNFQuery AST) :
    evalCNF v (pullNotOutFunctions (pushNotInFuntions cnf)) = evalCNF v cnf ∧
    evalCNF v (pushNotInFuntions (pullNotOutFunctions cnf)) = evalCNF v cnf := by
  unfold pullNotOutFunctions pushNotInFuntions
  constructor
  · rw [evalCNF_transformAtoms v _ pullNotOut (evalAtom_pullNotOut v hv),
      evalCNF_transformAtoms v _ pushNotIn (evalAtom_pushNotIn v hv)]
  · rw [evalCNF_transformAtoms v _ pushNotIn (evalAtom_pushNotIn v hv),
      evalCNF_transformAtoms v _ pullNotOut (evalAtom_pullNotOut v hv)]

/-- A valuation of the kind C12 asks for: the six relations `equals`, `less`,
`lessOrEquals`, `in`, `like`, `empty` are true, every other atom is false. -/
def positiveRelations : AST → Bool
  | .func name _ => decide (name ∈ ["equals", "less", "lessOrEquals", "in", "like", "empty"])
  | .leaf _ => false

/-- C12, at the CNF value `{{NOT equals(x, y), greater(x, y)}, {notIn(x, y)}}`. -/
theorem polarity_roundtrip_witness :
    PairedOpposite positiveRelations ∧
    evalCNF positiveRelations (pullNotOutFunctions (pushNotInFuntions
      {{⟨true, .func "equals" [.leaf 0, .leaf 1]⟩, ⟨false, .func "greater" [.leaf 0, .leaf 1]⟩},
        {⟨false, .func "notIn" [.leaf 0, .leaf 1]⟩}})) =
      evalCNF positiveRelations
        {{⟨true, .func "equals" [.leaf 0, .leaf 1]⟩,
            ⟨false, .func "greater" [.leaf 0, .leaf 1]⟩},
          {⟨false, .func "notIn" [.leaf 0, .leaf 1]⟩}} := by
  have hv : PairedOpposite positiveRelations := by
    intro p hp args
    simp only [pullNotOutRelations, List.mem_cons, List.mem_singleton, List.not_mem_nil,
      or_false] at hp
    rcases hp with rfl | rfl | rfl | rfl | rfl | rfl <;> rfl
  exact ⟨hv, (polarity_roundtrip positiveRelations hv _).1⟩


/-- C13: `splitMultiLogic` nests to the left: `AND(a, b, c)` becomes
`AND(AND(a, b), c)` (and likewise for OR and for any three atoms), not
`AND(a, AND(b, c))`. -/
theorem splitMultiLogic_nests_left :
    (∀ name : String, name = "and" ∨ name = "or" → ∀ a b c : AST,
      IsAtom a → IsAtom b → IsAtom c →
      splitMultiLogic (.func name [a, b, c]) = some (.func name [.func name [a, b], c])) ∧
    splitMultiLogic (.func "and" [.leaf 0, .leaf 1, .leaf 2]) =
      some (.func "and" [.func "and" [.leaf 0, .leaf 1], .leaf 2]) ∧
    splitMultiLogic (.func "and" [.leaf 0, .leaf 1, .leaf 2]) ≠
      some (.func "and" [.leaf 0, .func "and" [.leaf 1, .leaf 2]]) := by
  refine ⟨fun name hn a b c ha hb hc => ?_, by decide, by decide⟩
  rw [splitMultiLogic_logic name hn [a, b, c] (by simp) a [b, c]
    (splitMultiLogicList_atoms _ (by simp [ha, hb, hc])) rfl]
  rfl

/-- C14: the result of `splitMultiLogic` has exactly two children at every "and" and
"or" node reachable through the connectives, and `splitMultiLogic` returns it
unchanged. -/
theorem splitMultiLogic_idempotent (e t : AST) (h : splitMultiLogic e = some t) :
    isBinary t = true ∧ splitMultiLogic t = some t := by
  have hs := splitMultiLogic_spec e
  have hb : isBinary t = true := by
    cases hl : hasBadLogic e with
    | true => rw [hs.1 hl] at h; exact absurd h (by simp)
    | false =>
      obtain ⟨t1, h1, h2, _⟩ := hs.2 hl
      rw [h1] at h
      injection h with h
      rw [← h]
      exact h2
  exact ⟨hb, splitMultiLogic_binary t hb⟩

/-- C14, at `OR(NOT(AND(x, y, z)), u, v)`. -/
theorem splitMultiLogic_idempotent_witness :
    splitMultiLogic (.func "or"
        [.func "not" [.func "and" [.leaf 0, .leaf 1, .leaf 2]], .leaf 3, .leaf 4]) =
      some (.func "or" [.func "or"
        [.func "not" [.func "and" [.func "and" [.leaf 0, .leaf 1], .leaf 2]], .leaf 3],
        .leaf 4]) ∧
    isBinary (.func "or" [.func "or"
        [.func "not" [.func "and" [.func "and" [.leaf 0, .leaf 1], .leaf 2]], .leaf 3],
        .leaf 4]) = true ∧
    splitMultiLogic (.func "or" [.func "or"
        [.func "not" [.func "and" [.func "and" [.leaf 0, .leaf 1], .leaf 2]], .leaf 3],
        .leaf 4]) =
      some (.func "or" [.func "or"
        [.func "not" [.func "and" [.func "and" [.leaf 0, .leaf 1], .leaf 2]], .leaf 3],
        .leaf 4]) :=
  ⟨by decide, splitMultiLogic_idempotent
    (.func "or" [.func "not" [.func "and" [.leaf 0, .leaf 1, .leaf 2]], .leaf 3, .leaf 4]) _
    (by decide)⟩


/-- C15: on a binarized expression (every "and"/"or" with two children, every "not"
with one) `traversePushNot` succeeds, with either value of the flag, and in its
result the child of every "not" node is an atom. -/
theorem traversePushNot_nots_above_atoms (e : AST) (hb : isBinary e = true)
    (hn : hasBadNot e = false) (add_negation : Bool) :
    ∃ t, traversePushNot e add_negation = some t ∧ notsAboveAtoms t = true ∧ IsNNF t := by
  obtain ⟨t, h1, h2, _⟩ := (traversePushNot_spec e add_negation hb).2 hn
  exact ⟨t, h1, notsAboveAtoms_nnf t h2, h2⟩

/-- C15, at `NOT(AND(x, NOT(OR(y, NOT z))))` with the flag set: the result is
`AND(x, AND(NOT y, z))`. -/
theorem traversePushNot_nots_above_atoms_witness :
    traversePushNot (.func "not" [.func "and" [.leaf 0,
        .func "not" [.func "or" [.leaf 1, .func "not" [.leaf 2]]]]]) true =
      some (.func "and" [.leaf 0, .func "and" [.func "not" [.leaf 1], .leaf 2]]) ∧
    ∃ t, traversePushNot (.func "not" [.func "and" [.leaf 0,
        .func "not" [.func "or" [.leaf 1, .func "not" [.leaf 2]]]]]) true = some t ∧
      notsAboveAtoms t = true ∧ IsNNF t :=
  ⟨by decide, traversePushNot_nots_above_atoms _ (by decide) (by decide) true⟩

/-- C16: on a binary tree with "not" only above atoms `traversePushOr` returns a
result, and its result has no "and" node below an "or" node. -/
theorem traversePushOr_no_and_below_or (t : AST) (h : IsNNF t) :
    (∃ r, traversePushOr (pushOrFuel t) t = some r) ∧
    ∀ (n : Nat) (r : AST), traversePushOr n t = some r → noAndBelowOr r = true := by
  constructor
  · obtain ⟨r, h1, _⟩ := traversePushOr_nnf t h (pushOrFuel t) (le_refl _)
    exact ⟨r, h1⟩
  · intro n r hr
    exact noAndBelowOr_cnf r (traversePushOr_result t h n r hr).1

/-- C16, at `OR(AND(x, y), AND(z, NOT u))`. -/
theorem traversePushOr_no_and_below_or_witness :
    traversePushOr 32
        (.func "or" [.func "and" [.leaf 0, .leaf 1],
          .func "and" [.leaf 2, .func "not" [.leaf 3]]]) =
      some (.func "and"
        [.func "and" [.func "or" [.leaf 2, .leaf 0], .func "or" [.leaf 2, .leaf 1]],
         .func "and" [.func "or" [.func "not" [.leaf 3], .leaf 0],
           .func "or" [.func "not" [.leaf 3], .leaf 1]]]) ∧
    noAndBelowOr (.func "and"
        [.func "and" [.func "or" [.leaf 2, .leaf 0], .func "or" [.leaf 2, .leaf 1]],
         .func "and" [.func "or" [.func "not" [.leaf 3], .leaf 0],
           .func "or" [.func "not" [.leaf 3], .leaf 1]]]) = true :=
  ⟨by decide,
    (traversePushOr_no_and_below_or
      (.func "or" [.func "and" [.leaf 0, .leaf 1],
        .func "and" [.leaf 2, .func "not" [.leaf 3]]])
      (IsNNF.or _ _
        (IsNNF.and _ _ (IsNNF.lit _ (IsLit.atom _ trivial)) (IsNNF.lit _ (IsLit.atom _ trivial)))
        (IsNNF.and _ _ (IsNNF.lit _ (IsLit.atom _ trivial))
          (IsNNF.lit _ (IsLit.not _ trivial))))).2 32 _ (by decide)⟩

/-- C17: on a binary tree with "not" only above atoms the recursion of
`traversePushOr` ends: its depth is at most `pushOrFuel`, and with that depth or any
greater `traversePushOr` returns one and the same result. -/
theorem traversePushOr_terminates (t : AST) (h : IsNNF t) :
    ∃ r, ∀ m, pushOrFuel t ≤ m → traversePushOr m t = some r := by
  obtain ⟨r, h1, _⟩ := traversePushOr_nnf t h (pushOrFuel t) (le_refl _)
  exact ⟨r, fun m hm => traversePushOr_le _ m hm t r h1⟩

/-- C17, at `OR(AND(x, y), OR(AND(z, u), w))`. -/
theorem traversePushOr_terminates_witness :
    pushOrFuel (.func "or" [.func "and" [.leaf 0, .leaf 1],
        .func "or" [.func "and" [.leaf 2, .leaf 3], .leaf 4]]) = 64 ∧
    ∃ r, ∀ m, 64 ≤ m →
      traversePushOr m (.func "or" [.func "and" [.leaf 0, .leaf 1],
        .func "or" [.func "and" [.leaf 2, .leaf 3], .leaf 4]]) = some r :=
  ⟨by decide,
    traversePushOr_terminates
      (.func "or" [.func "and" [.leaf 0, .leaf 1],
        .func "or" [.func "and" [.leaf 2, .leaf 3], .leaf 4]])
      (IsNNF.or _ _
        (IsNNF.and _ _ (IsNNF.lit _ (IsLit.atom _ trivial)) (IsNNF.lit _ (IsLit.atom _ trivial)))
        (IsNNF.or _ _
          (IsNNF.and _ _ (IsNNF.lit _ (IsLit.atom _ trivial))
            (IsNNF.lit _ (IsLit.atom _ trivial)))
          (IsNNF.lit _ (IsLit.atom _ trivial))))⟩


/-- C18: double negation cancels: `toCNF(NOT(NOT(e)))` is `toCNF(e)`, a CNF value
whenever `toCNF(e)` is one; and `toCNF(NOT(NOT(a)))` is the single clause `{a}` for
an atom `a`. -/
theorem toCNF_double_negation :
    (∀ e : AST, toCNF (.func "not" [.func "not" [e]]) = toCNF e) ∧
    (∀ (e : AST) (cnf : CNFQuery AST), toCNF e = some cnf →
      toCNF (.func "not" [.func "not" [e]]) = some cnf) ∧
    (∀ a : AST, IsAtom a → toCNF (.func "not" [.func "not" [a]]) = some {{⟨false, a⟩}}) := by
  have key : ∀ e : AST, toCNF (.func "not" [.func "not" [e]]) = toCNF e := by
    intro e
    unfold toCNF
    have hs : splitMultiLogic (.func "not" [.func "not" [e]]) =
        (splitMultiLogic e).map (fun e1 => .func "not" [.func "not" [e1]]) := by
      simp only [splitMultiLogic_func, splitMultiLogicList]
      cases splitMultiLogic e <;> simp
    rw [hs]
    cases splitMultiLogic e with
    | none => rfl
    | some e1 =>
      have hp : traversePushNot (.func "not" [.func "not" [e1]]) false =
          traversePushNot e1 false := by
        simp [traversePushNot_func]
      simp only [Option.map_some']
      rw [hp]
  refine ⟨key, fun e cnf h => by rw [key e, h], fun a ha => ?_⟩
  rw [key a]
  simp only [toCNF, splitMultiLogic_atom a ha, traversePushNot_atom a ha,
    traversePushOr_fuel_cnf a (isCNF_atom a ha), traverseCNFTop_atom a ha]
  rfl


/-- C19: with `C = {x, NOT x}` and `l = y`, `reduce` returns the two clauses
`C ∪ {y}` and `C ∪ {NOT y}` as they are (they are what `toCNF` returns for
`AND(OR(x, NOT x, y), OR(x, NOT x, NOT y))`), not the single clause `C`. The example
of the claim holds: `reduce` of `{a, b} AND {a, NOT b}` is `{a}` for predicates
`a ≠ b`. -/
theorem reduce_misses_consensus :
    toCNF (.func "and" [.func "or" [.leaf 0, .func "not" [.leaf 0], .leaf 1],
        .func "or" [.leaf 0, .func "not" [.leaf 0], .func "not" [.leaf 1]]]) =
      some {insert ⟨false, .leaf 1⟩ {⟨false, .leaf 0⟩, ⟨true, .leaf 0⟩},
        insert ⟨true, .leaf 1⟩ {⟨false, .leaf 0⟩, ⟨true, .leaf 0⟩}} ∧
    (⟨false, .leaf 1⟩ : AtomicFormula AST) ∉
      ({⟨false, .leaf 0⟩, ⟨true, .leaf 0⟩} : OrGroup AST) ∧
    (⟨true, .leaf 1⟩ : AtomicFormula AST) ∉
      ({⟨false, .leaf 0⟩, ⟨true, .leaf 0⟩} : OrGroup AST) ∧
    reduce ({insert ⟨false, .leaf 1⟩ {⟨false, .leaf 0⟩, ⟨true, .leaf 0⟩},
        insert ⟨true, .leaf 1⟩ {⟨false, .leaf 0⟩, ⟨true, .leaf 0⟩}} : CNFQuery AST) =
      {insert ⟨false, .leaf 1⟩ {⟨false, .leaf 0⟩, ⟨true, .leaf 0⟩},
        insert ⟨true, .leaf 1⟩ {⟨false, .leaf 0⟩, ⟨true, .leaf 0⟩}} ∧
    reduce ({insert ⟨false, .leaf 1⟩ {⟨false, .leaf 0⟩, ⟨true, .leaf 0⟩},
        insert ⟨true, .leaf 1⟩ {⟨false, .leaf 0⟩, ⟨true, .leaf 0⟩}} : CNFQuery AST) ≠
      {{⟨false, .leaf 0⟩, ⟨true, .leaf 0⟩}} ∧
    (∀ a b : AST, a ≠ b →
      reduce ({{⟨false, a⟩, ⟨false, b⟩}, {⟨false, a⟩, ⟨true, b⟩}} : CNFQuery AST) =
        {{⟨false, a⟩}}) := by
  have hred : reduce ({insert ⟨false, .leaf 1⟩ {⟨false, .leaf 0⟩, ⟨true, .leaf 0⟩},
        insert ⟨true, .leaf 1⟩ {⟨false, .leaf 0⟩, ⟨true, .leaf 0⟩}} : CNFQuery AST) =
      {insert ⟨false, .leaf 1⟩ {⟨false, .leaf 0⟩, ⟨true, .leaf 0⟩},
        insert ⟨true, .leaf 1⟩ {⟨false, .leaf 0⟩, ⟨true, .leaf 0⟩}} := by
    rw [reduce_unfold, if_pos (by decide)]
    decide
  refine ⟨eq_some_of_resultIs (by decide), by decide, by decide, hred, ?_, fun a b hab => ?_⟩
  · rw [hred]
    decide
  · have h := reduce_consensus_clean ({⟨false, a⟩} : OrGroup AST) ⟨false, b⟩
      (by simp [AtomicFormula.negated]) (by simpa using fun e => hab e.symm)
      (by simp [AtomicFormula.negated])
    have e1 : insert (⟨false, b⟩ : AtomicFormula AST) ({⟨false, a⟩} : OrGroup AST) =
        ({⟨false, a⟩, ⟨false, b⟩} : OrGroup AST) := Finset.pair_comm _ _
    have e2 : insert (AtomicFormula.negated (⟨false, b⟩ : AtomicFormula AST))
        ({⟨false, a⟩} : OrGroup AST) = ({⟨false, a⟩, ⟨true, b⟩} : OrGroup AST) :=
      Finset.pair_comm _ _
    rw [e1, e2] at h
    exact h

/-- C20: the CNF value `{{x, NOT x, y}, {x, NOT x, NOT y}}` is left unchanged by
`reduceOnce` although flipping `y` in its first clause gives its second clause; and
`{{x, NOT x, y}, {NOT x, NOT y}}` is changed by `reduceOnce` (its first clause
becomes `{NOT x}`) although no flip of a literal of a clause gives a clause. -/
theorem reduceOnce_test_not_exact :
    (({{⟨false, .leaf 0⟩, ⟨true, .leaf 0⟩, ⟨false, .leaf 1⟩},
        {⟨false, .leaf 0⟩, ⟨true, .leaf 0⟩, ⟨true, .leaf 1⟩}} : CNFQuery AST) =
      reduceOnce {{⟨false, .leaf 0⟩, ⟨true, .leaf 0⟩, ⟨false, .leaf 1⟩},
        {⟨false, .leaf 0⟩, ⟨true, .leaf 0⟩, ⟨true, .leaf 1⟩}} ∧
     insert (AtomicFormula.negated (⟨false, .leaf 1⟩ : AtomicFormula AST))
        (({⟨false, .leaf 0⟩, ⟨true, .leaf 0⟩, ⟨false, .leaf 1⟩} : OrGroup AST).erase
          ⟨false, .leaf 1⟩) ∈
      ({{⟨false, .leaf 0⟩, ⟨true, .leaf 0⟩, ⟨false, .leaf 1⟩},
        {⟨false, .leaf 0⟩, ⟨true, .leaf 0⟩, ⟨true, .leaf 1⟩}} : CNFQuery AST)) ∧
    (reduceOnce ({{⟨false, .leaf 0⟩, ⟨true, .leaf 0⟩, ⟨false, .leaf 1⟩},
        {⟨true, .leaf 0⟩, ⟨true, .leaf 1⟩}} : CNFQuery AST) =
      {{⟨true, .leaf 0⟩}, {⟨true, .leaf 0⟩, ⟨true, .leaf 1⟩}} ∧
     ¬ ∃ g ∈ ({{⟨false, .leaf 0⟩, ⟨true, .leaf 0⟩, ⟨false, .leaf 1⟩},
        {⟨true, .leaf 0⟩, ⟨true, .leaf 1⟩}} : CNFQuery AST),
        ∃ l ∈ g, insert l.negated (g.erase l) ∈
          ({{⟨false, .leaf 0⟩, ⟨true, .leaf 0⟩, ⟨false, .leaf 1⟩},
            {⟨true, .leaf 0⟩, ⟨true, .leaf 1⟩}} : CNFQuery AST)) :=
  ⟨⟨by decide, by decide⟩, ⟨by decide, by decide⟩⟩

end DB
